import Mathlib

/-!
# Verification of the mini-git staging core

Shallow embedding of the staging subsystem of `rust-mini-git`
(`src/main.rs`): the SHA-1 content hasher with lowercase-hex rendering
(`sha1_hex`), the JSON-persisted staging index (`load_index` /
`save_index`, with the serde_json textual encoding modelled
concretely), path normalization (`to_repo_relative`), blob staging
(`stage_file`), directory traversal (`walkdir`), and the `add`
command orchestration (`cmd_add`).

Machine integers are modelled as `Nat` with explicit `% 2^32`; bytes
are `Nat` (values below 256 in every reachable state).  File-system
state is explicit: a tree of regular files and directories for the
working directory, association lists for the object store, and an
`Option String` for the persisted index file.  Fallible operations
return `Except String`, with error strings following the
`anyhow::Context` messages attached in the source; I/O errors raised
by the standard library without added context (e.g. `fs::read_dir`)
are modelled by a fixed OS error string, since `std::io::Error` does
not carry the offending path.
-/

namespace MiniGit

/-! ## Content hasher: SHA-1 (the `sha1` crate) and hex rendering (`sha1_hex`) -/

def M32 : Nat := 4294967296

/-- Rotate a 32-bit word left by `k` bits. -/
def rotl (k n : Nat) : Nat := ((n <<< k) ||| (n >>> (32 - k))) % M32

/-- Big-endian 8-byte rendering of the 64-bit message bit length. -/
def be8 (n : Nat) : List Nat :=
  [n / 2 ^ 56 % 256, n / 2 ^ 48 % 256, n / 2 ^ 40 % 256, n / 2 ^ 32 % 256,
   n / 2 ^ 24 % 256, n / 2 ^ 16 % 256, n / 2 ^ 8 % 256, n % 256]

/-- Big-endian 4-byte rendering of a 32-bit word. -/
def be4 (n : Nat) : List Nat :=
  [n / 2 ^ 24 % 256, n / 2 ^ 16 % 256, n / 2 ^ 8 % 256, n % 256]

/-- FIPS 180-4 padding: `0x80`, zeros to 56 mod 64, 8-byte bit length. -/
def sha1pad (msg : List Nat) : List Nat :=
  let padlen := (56 + 64 - (msg.length + 1) % 64) % 64
  msg ++ 128 :: List.replicate padlen 0 ++ be8 (msg.length * 8)

/-- Group bytes into big-endian 32-bit words. -/
def toWords : List Nat → List Nat
  | a :: b :: c :: d :: rest => (((a * 256 + b) * 256 + c) * 256 + d) :: toWords rest
  | _ => []

/-- Extend the 16-word schedule by `fuel` further words. -/
def expandW (ws : List Nat) : Nat → List Nat
  | 0 => ws
  | f + 1 =>
      let n := ws.length
      expandW (ws ++ [rotl 1 (((ws.getD (n - 3) 0) ^^^ (ws.getD (n - 8) 0)) ^^^
        ((ws.getD (n - 14) 0) ^^^ (ws.getD (n - 16) 0)))]) f

def sha1F (i b c d : Nat) : Nat :=
  if i < 20 then (b &&& c) ||| ((b ^^^ 4294967295) &&& d)
  else if i < 40 then (b ^^^ c) ^^^ d
  else if i < 60 then ((b &&& c) ||| (b &&& d)) ||| (c &&& d)
  else (b ^^^ c) ^^^ d

def sha1K (i : Nat) : Nat :=
  if i < 20 then 1518500249
  else if i < 40 then 1859775393
  else if i < 60 then 2400959708
  else 3395469782

/-- The five 32-bit state words of SHA-1. -/
structure H5 where
  a : Nat
  b : Nat
  c : Nat
  d : Nat
  e : Nat
deriving DecidableEq

def sha1Round (st : H5) (iw : Nat × Nat) : H5 :=
  ⟨(rotl 5 st.a + sha1F iw.1 st.b st.c st.d + st.e + sha1K iw.1 + iw.2) % M32,
   st.a, rotl 30 st.b, st.c, st.d⟩

def processBlock (h : H5) (block : List Nat) : H5 :=
  let ws := expandW (toWords block) 64
  let st := ((List.range 80).zip ws).foldl sha1Round h
  ⟨(h.a + st.a) % M32, (h.b + st.b) % M32, (h.c + st.c) % M32,
   (h.d + st.d) % M32, (h.e + st.e) % M32⟩

/-- Split into 64-byte blocks; `fuel` bounds the number of blocks. -/
def chunks64 : Nat → List Nat → List (List Nat)
  | 0, _ => []
  | _, [] => []
  | f + 1, l => l.take 64 :: chunks64 f (l.drop 64)

def sha1H0 : H5 := ⟨1732584193, 4023233417, 2562383102, 271733878, 3285377520⟩

/-- SHA-1 digest: 20 bytes. -/
def sha1 (msg : List Nat) : List Nat :=
  let padded := sha1pad msg
  let h := (chunks64 padded.length padded).foldl processBlock sha1H0
  be4 h.a ++ be4 h.b ++ be4 h.c ++ be4 h.d ++ be4 h.e

/-- The lookup table `T` of `sha1_hex`: `b"0123456789abcdef"`. -/
def hexTable : List Char := "0123456789abcdef".data

/-- `sha1_hex`: digest bytes rendered as 40 lowercase hex characters,
most-significant nibble of each byte first. -/
def sha1_hex (bytes : List Nat) : String :=
  String.mk ((sha1 bytes).flatMap (fun b => [hexTable.getD (b >>> 4) '0', hexTable.getD (b &&& 15) '0']))

/-! ## The staging index: `HashMap<String, String>` as an association list

The Rust `Index` is a `HashMap<String, String>`; we model it as an
association list with no duplicate keys (the `HashMap` invariant),
`insertIdx` replacing the value at an existing key and appending a
fresh key, as `HashMap::insert` does. -/

abbrev Index := List (String × String)

/-- Association-list lookup (`HashMap::get`). -/
def alookup {α : Type} : List (String × α) → String → Option α
  | [], _ => none
  | (k', v') :: rest, k => if k' = k then some v' else alookup rest k

/-- `HashMap::insert`: overwrite an existing key, else append. -/
def insertIdx : Index → String → String → Index
  | [], k, v => [(k, v)]
  | (k', v') :: rest, k, v =>
      if k' = k then (k, v) :: rest else (k', v') :: insertIdx rest k v

/-- Number of entries stored under key `k`. -/
def countKey (idx : Index) (k : String) : Nat :=
  (idx.filter (fun e => e.1 = k)).length

/-! ## serde_json encoding of the index

`save_index` serializes with `serde_json::to_vec_pretty`, `load_index`
parses with `serde_json::from_slice::<HashMap<String, String>>`.  We
model both concretely: the exact pretty textual form emitted for a
string-to-string object (two-space indent), and a recursive-descent
parser for such objects (whitespace-tolerant, JSON string escapes,
later duplicate keys winning as they do when collected into a
`HashMap`). -/

/-- Lowercase hex digit, for `\u00XX` escapes. -/
def hexDig (n : Nat) : Char := hexTable.getD n '0'

/-- serde_json escaping of one character inside a JSON string. -/
def escChar (c : Char) : List Char :=
  if c = '"' then ['\\', '"']
  else if c = '\\' then ['\\', '\\']
  else if c = '\x08' then ['\\', 'b']
  else if c = '\t' then ['\\', 't']
  else if c = '\n' then ['\\', 'n']
  else if c = '\x0c' then ['\\', 'f']
  else if c = '\r' then ['\\', 'r']
  else if c.toNat < 32 then ['\\', 'u', '0', '0', hexDig (c.toNat / 16), hexDig (c.toNat % 16)]
  else [c]

/-- A JSON string literal: quote, escaped body, quote. -/
def renderStr (s : String) : List Char :=
  '"' :: s.data.flatMap escChar ++ ['"']

/-- One `"key": "value"` member. -/
def renderMember (kv : String × String) : List Char :=
  renderStr kv.1 ++ ':' :: ' ' :: renderStr kv.2

/-- The members of a pretty-printed object: each on its own line,
indented two spaces, comma-separated. -/
def renderMembers : Index → List Char
  | [] => []
  | kv :: rest =>
      '\n' :: ' ' :: ' ' :: renderMember kv ++
        (if rest.isEmpty then [] else [',']) ++ renderMembers rest

/-- `serde_json::to_vec_pretty` of the index map. -/
def serializeIndex (m : Index) : String :=
  if m.isEmpty then "{}"
  else String.mk ('{' :: renderMembers m ++ ['\n', '}'])

/-- JSON insignificant whitespace. -/
def isJsonWs (c : Char) : Bool :=
  c = ' ' || c = '\n' || c = '\t' || c = '\r'

def skipWs : List Char → List Char
  | [] => []
  | c :: rest => if isJsonWs c then skipWs rest else c :: rest

/-- Value of one hex digit. -/
def hexVal (c : Char) : Option Nat :=
  if '0' ≤ c ∧ c ≤ '9' then some (c.toNat - '0'.toNat)
  else if 'a' ≤ c ∧ c ≤ 'f' then some (c.toNat - 'a'.toNat + 10)
  else if 'A' ≤ c ∧ c ≤ 'F' then some (c.toNat - 'A'.toNat + 10)
  else none

/-- The single-character JSON escapes. -/
def escDecode (e : Char) : Option Char :=
  if e = '"' then some '"'
  else if e = '\\' then some '\\'
  else if e = '/' then some '/'
  else if e = 'b' then some '\x08'
  else if e = 'f' then some '\x0c'
  else if e = 'n' then some '\n'
  else if e = 'r' then some '\r'
  else if e = 't' then some '\t'
  else none

/-- Parse the body of a JSON string up to and including the closing
quote; raw control characters and truncated escapes are errors. -/
def parseStrBody : List Char → Option (List Char × List Char)
  | [] => none
  | c :: rest =>
      if c = '"' then some ([], rest)
      else if c = '\\' then
        match rest with
        | [] => none
        | e :: rest2 =>
            if e = 'u' then
              match rest2 with
              | h1 :: h2 :: h3 :: h4 :: rest6 =>
                  match hexVal h1, hexVal h2, hexVal h3, hexVal h4 with
                  | some a, some b, some cc, some d =>
                      let n := ((a * 16 + b) * 16 + cc) * 16 + d
                      if Nat.isValidChar n then
                        (parseStrBody rest6).map (fun br => (Char.ofNat n :: br.1, br.2))
                      else none
                  | _, _, _, _ => none
              | _ => none
            else
              match escDecode e with
              | some d => (parseStrBody rest2).map (fun br => (d :: br.1, br.2))
              | none => none
      else if 32 ≤ c.toNat then (parseStrBody rest).map (fun br => (c :: br.1, br.2))
      else none

/-- Parse a JSON string literal starting at the opening quote. -/
def parseJStr (s : List Char) : Option (String × List Char) :=
  match s with
  | [] => none
  | c :: rest =>
      if c = '"' then (parseStrBody rest).map (fun br => (String.mk br.1, br.2))
      else none

/-- Parse the members of the object, starting at the first key;
duplicate keys resolve as `HashMap` insertion (later wins).  `fuel`
bounds the number of members. -/
def parseMembers : Nat → Index → List Char → Option Index
  | 0, _, _ => none
  | fuel + 1, acc, s =>
      match parseJStr s with
      | none => none
      | some (k, r1) =>
          match skipWs r1 with
          | ':' :: r2 =>
              match parseJStr (skipWs r2) with
              | none => none
              | some (v, r3) =>
                  match skipWs r3 with
                  | '}' :: r4 =>
                      if skipWs r4 = [] then some (insertIdx acc k v) else none
                  | ',' :: r4 => parseMembers fuel (insertIdx acc k v) (skipWs r4)
                  | _ => none
          | _ => none

/-- `serde_json::from_slice::<HashMap<String, String>>`. -/
def parseIndex (s : String) : Option Index :=
  match skipWs s.data with
  | '{' :: r =>
      match skipWs r with
      | '}' :: r2 => if skipWs r2 = [] then some [] else none
      | r1 => parseMembers (r1.length + 1) [] r1
  | _ => none

/-! ## Paths and the file-system model

A `Path` is its list of normal components plus an absolute flag
(Unix `Path` semantics: absolute iff it starts with the root).  The
working directory's contents are an `FsTree`: regular files with byte
content, and directories whose `readable` flag records whether
`fs::read_dir` succeeds on them (`is_dir`/`is_file` metadata checks
succeed regardless, as `stat` does). -/

structure Path where
  absolute : Bool
  comps : List String
deriving DecidableEq

/-- `Path::display` / `to_string_lossy` rendering. -/
def renderPath (p : Path) : String :=
  (if p.absolute then "/" else "") ++ String.intercalate "/" p.comps

inductive FsTree where
  | file (content : List Nat) : FsTree
  | dir (readable : Bool) (entries : List (String × FsTree)) : FsTree

/-- Navigate a tree along a component list. -/
def resolveT : FsTree → List String → Option FsTree
  | t, [] => some t
  | FsTree.file _, _ :: _ => none
  | FsTree.dir _ es, n :: rest =>
      match alookup es n with
      | some t => resolveT t rest
      | none => none

/-- The whole mutable world of one staging invocation, besides the
index: the working directory tree (rooted at the process cwd), the
object store keyed by digest, whether the objects directory is
writable, the absolute location of the cwd, and whether
`env::current_dir` succeeds. -/
structure St where
  root : FsTree
  objects : List (String × List Nat)
  objectsWritable : Bool
  cwdPath : List String
  cwdOk : Bool

/-- Components of `p` relative to the cwd, when `p` points into the
cwd subtree (an absolute path resolves through the cwd location, a
relative one is already cwd-relative for the OS). -/
def underCwd (st : St) (p : Path) : Option (List String) :=
  if p.absolute then
    if st.cwdPath <+: p.comps then some (p.comps.drop st.cwdPath.length) else none
  else some p.comps

/-- OS-level path resolution against the modelled subtree. -/
def resolveSt (st : St) (p : Path) : Option FsTree :=
  match underCwd st p with
  | some q => resolveT st.root q
  | none => none

/-- `Path::is_dir` (metadata, indifferent to readability). -/
def isDirAt (st : St) (p : Path) : Bool :=
  match resolveSt st p with
  | some (FsTree.dir _ _) => true
  | _ => false

/-- `Path::is_file`. -/
def isFileAt (st : St) (p : Path) : Bool :=
  match resolveSt st p with
  | some (FsTree.file _) => true
  | _ => false

/-- `fs::read(path)`. -/
def readFile (st : St) (p : Path) : Option (List Nat) :=
  match resolveSt st p with
  | some (FsTree.file c) => some c
  | _ => none

/-- Fixed display of a `std::io::Error` propagated without added
context; the OS error carries no path information. -/
def osIoError : String := "Permission denied (os error 13)"

/-- Display of the `env::current_dir` failure propagated by `?`. -/
def cwdError : String := "No such file or directory (os error 2)"

/-! ## `to_repo_relative` -/

/-- `to_repo_relative`: resolve against the cwd, strip the cwd
prefix, fall back to the absolute path when stripping fails. -/
def to_repo_relative (st : St) (p : Path) : Except String String :=
  if st.cwdOk then
    let abs : Path := if p.absolute then p else ⟨true, st.cwdPath ++ p.comps⟩
    let rel : Path :=
      if st.cwdPath <+: abs.comps then ⟨false, abs.comps.drop st.cwdPath.length⟩ else abs
    Except.ok (renderPath rel)
  else Except.error cwdError

/-! ## `stage_file` -/

/-- `stage_file`: read the file, hash it, write the blob unless an
object already exists at that digest, normalize the path, insert into
the index.  The returned `Index` is the state of the `&mut Index`
buffer after the call, on failure as well as on success: the source
mutates the index only in its final step, after every fallible one. -/
def stage_file (st : St) (p : Path) (index : Index) : Except String St × Index :=
  match readFile st p with
  | none => (Except.error ("reading " ++ renderPath p), index)
  | some data =>
      let blob_id := sha1_hex data
      let afterBlob : Except String St :=
        if (alookup st.objects blob_id).isSome then Except.ok st
        else if st.objectsWritable then
          Except.ok { st with objects := (blob_id, data) :: st.objects }
        else Except.error ("writing blob " ++ blob_id)
      match afterBlob with
      | Except.error e => (Except.error e, index)
      | Except.ok st' =>
          match to_repo_relative st p with
          | Except.error e => (Except.error e, index)
          | Except.ok rel => (Except.ok st', insertIdx index rel blob_id)

/-! ## `walkdir` -/

mutual
/-- `walkdir`: depth-first listing of the regular files under a
directory; `base` is the path of the node `t`, as the source threads
`root.join(entry)` through the recursion.  `fs::read_dir` on an
unreadable directory (or a non-directory) fails with the raw OS
error. -/
def walkdir (base : List String) : FsTree → Except String (List (List String))
  | FsTree.file _ => Except.error osIoError
  | FsTree.dir false _ => Except.error osIoError
  | FsTree.dir true es => walkEntries base es

/-- The `for entry in fs::read_dir(root)?` loop: directories are
expanded in place, regular files are pushed, in entry order. -/
def walkEntries (base : List String) : List (String × FsTree) → Except String (List (List String))
  | [] => Except.ok []
  | (n, t) :: rest =>
      match t with
      | FsTree.dir r es =>
          match walkdir (base ++ [n]) (FsTree.dir r es) with
          | Except.error e => Except.error e
          | Except.ok sub =>
              match walkEntries base rest with
              | Except.error e => Except.error e
              | Except.ok tl => Except.ok (sub ++ tl)
      | FsTree.file _ =>
          match walkEntries base rest with
          | Except.error e => Except.error e
          | Except.ok tl => Except.ok ((base ++ [n]) :: tl)
end

mutual
/-- The transitively contained regular files of a tree, as paths
relative to it, in traversal order (for comparison with `walkdir`). -/
def filesOf : FsTree → List (List String)
  | FsTree.file _ => []
  | FsTree.dir _ es => filesOfEntries es

/-- Files of a directory's entry list. -/
def filesOfEntries : List (String × FsTree) → List (List String)
  | [] => []
  | (n, t) :: rest =>
      match t with
      | FsTree.dir r es => (filesOf (FsTree.dir r es)).map (n :: ·) ++ filesOfEntries rest
      | FsTree.file _ => [n] :: filesOfEntries rest
end

mutual
/-- Every directory reachable from `t` (itself included, when it is
one) can be listed by `fs::read_dir`. -/
def allReadable : FsTree → Bool
  | FsTree.file _ => true
  | FsTree.dir r es => r && allReadableEntries es

def allReadableEntries : List (String × FsTree) → Bool
  | [] => true
  | (_, t) :: rest => allReadable t && allReadableEntries rest
end

/-! ## `load_index`, `save_index`, `cmd_add`

The persisted side of one repository: whether `.minigit` exists, the
content of `.minigit/index.json` (`none` when the file does not
exist), and a count of the writes made to it, so that "persisted
exactly once" is a statement about the model. -/

structure Repo where
  st : St
  repoExists : Bool
  indexFile : Option String
  indexWrites : Nat

/-- `load_index`: an absent file is an empty map; an unparsable file
is a parse error carrying the `anyhow` context naming `index.json`. -/
def load_index (file : Option String) : Except String Index :=
  match file with
  | none => Except.ok []
  | some s =>
      match parseIndex s with
      | some idx => Except.ok idx
      | none => Except.error "parsing index.json as JSON"

/-- `save_index`: serialize the whole map and overwrite
`.minigit/index.json` in a single write. -/
def save_index (r : Repo) (index : Index) : Repo :=
  { r with indexFile := some (serializeIndex index), indexWrites := r.indexWrites + 1 }

/-- The warning `cmd_add` prints for an argument that is neither an
existing file nor an existing directory. -/
def skipWarning (p : Path) : String :=
  "Skipping (not found): " ++ renderPath p

/-- Stage every file of a `walkdir` listing, in order. -/
def stageList (st : St) (index : Index) : List Path → Except String St × Index
  | [] => (Except.ok st, index)
  | p :: rest =>
      match stage_file st p index with
      | (Except.error e, idx') => (Except.error e, idx')
      | (Except.ok st', idx') => stageList st' idx' rest

/-- The argument loop of `cmd_add`: directories are expanded via
`walkdir` and every yielded file staged, files are staged directly,
anything else is skipped with a warning.  Returns the final world,
index buffer and warnings. -/
def addLoop (st : St) (index : Index) (warns : List String) :
    List Path → Except String St × Index × List String
  | [] => (Except.ok st, index, warns)
  | p :: rest =>
      if isDirAt st p then
        match resolveSt st p with
        | some t =>
            match walkdir p.comps t with
            | Except.error e => (Except.error e, index, warns)
            | Except.ok files =>
                match stageList st index (files.map (fun q => Path.mk p.absolute q)) with
                | (Except.error e, idx') => (Except.error e, idx', warns)
                | (Except.ok st', idx') => addLoop st' idx' warns rest
        | none => (Except.error osIoError, index, warns)
      else if isFileAt st p then
        match stage_file st p index with
        | (Except.error e, idx') => (Except.error e, idx', warns)
        | (Except.ok st', idx') => addLoop st' idx' warns rest
      else addLoop st index (warns ++ [skipWarning p]) rest

/-- `cmd_add`: guard on the repo, load the index, process every
argument, then persist the index once and report the number of staged
paths.  Returns the repo, the warnings emitted, and the status line. -/
def cmd_add (r : Repo) (args : List Path) : Except String (Repo × List String × String) :=
  if !r.repoExists then
    Except.error "Not a mini-git repo (missing .minigit). Run `mini-git init` first."
  else
    match load_index r.indexFile with
    | Except.error e => Except.error e
    | Except.ok index0 =>
        match addLoop r.st index0 [] args with
        | (Except.error e, _, _) => Except.error e
        | (Except.ok st', index', warns) =>
            let r' := save_index { r with st := st' } index'
            Except.ok (r', warns, "Staged " ++ toString index'.length ++ " path(s).")

/-- The serialized text from the first member onward (what remains of
a nonempty pretty object after `{` and the first line's indent); used
to reason about truncated index files. -/
def renderTail : Index → List Char
  | [] => ['\n', '}']
  | kv :: rest =>
      renderMember kv ++ (if rest.isEmpty then [] else [',']) ++
        renderMembers rest ++ ['\n', '}']

/-- What follows a member's value in the serialized text: the
separator (if members remain) and the remaining members with the
closing brace. -/
def sepClose (rest : Index) : List Char :=
  (if rest.isEmpty then [] else [',']) ++ (renderMembers rest ++ ['\n', '}'])

/-- The string `to_repo_relative` produces when the cwd is known. -/
def normPath (st : St) (p : Path) : String :=
  let abs : Path := if p.absolute then p else ⟨true, st.cwdPath ++ p.comps⟩
  renderPath
    (if st.cwdPath <+: abs.comps then ⟨false, abs.comps.drop st.cwdPath.length⟩
      else abs)

/-- An `add` argument that is neither an existing file nor an
existing directory, hence skipped with a warning. -/
def skippedArg (st : St) (p : Path) : Bool :=
  !isDirAt st p && !isFileAt st p

/-- No duplicate names in a directory listing. -/
def nodupNames : List String → Bool
  | [] => true
  | x :: rest => !rest.contains x && nodupNames rest

mutual
/-- Well-formed directory tree: sibling names are distinct at every
level (as they are on a real file system). -/
def namesOk : FsTree → Bool
  | FsTree.file _ => true
  | FsTree.dir _ es => nodupNames (es.map Prod.fst) && namesOkEntries es

def namesOkEntries : List (String × FsTree) → Bool
  | [] => true
  | (_, t) :: rest => namesOk t && namesOkEntries rest
end

/-- An `add` argument is processable: whatever it resolves to is
fully readable and well formed (files and missing paths trivially
qualify). -/
def argReadable (st : St) (p : Path) : Bool :=
  match resolveSt st p with
  | some t => allReadable t && namesOk t
  | none => true

/-! # Theorems -/

/-! ## Generic association-list lemmas -/

theorem alookup_insert_self (idx : Index) (k v : String) :
    alookup (insertIdx idx k v) k = some v := by
  induction idx with
  | nil => simp [insertIdx, alookup]
  | cons e rest ih =>
      by_cases h : e.1 = k
      · simp [insertIdx, h, alookup]
      · simp [insertIdx, h, alookup, ih]

theorem alookup_insert_ne (idx : Index) (k v k' : String) (h : k' ≠ k) :
    alookup (insertIdx idx k v) k' = alookup idx k' := by
  induction idx with
  | nil => simp [insertIdx, alookup, Ne.symm h]
  | cons e rest ih =>
      obtain ⟨a, b⟩ := e
      by_cases he : a = k
      · subst he
        simp [insertIdx, alookup, Ne.symm h]
      · by_cases he' : a = k'
        · simp [insertIdx, he, alookup, he', h]
        · simp [insertIdx, he, alookup, he', ih]

theorem keys_insert_subset (idx : Index) (k v : String) :
    ((insertIdx idx k v).map Prod.fst) ⊆ k :: idx.map Prod.fst := by
  induction idx with
  | nil => simp [insertIdx]
  | cons e rest ih =>
      obtain ⟨a, b⟩ := e
      by_cases he : a = k
      · subst he
        intro x hx
        simp only [insertIdx, eq_self_iff_true, if_true, List.map_cons,
          List.mem_cons] at hx ⊢
        tauto
      · intro x hx
        simp only [insertIdx, he, if_false, List.map_cons, List.mem_cons] at hx ⊢
        rcases hx with hx | hx
        · tauto
        · rcases List.mem_cons.mp (ih hx) with hx' | hx' <;> tauto

theorem insertIdx_keys_nodup (idx : Index) (k v : String)
    (h : (idx.map Prod.fst).Nodup) : ((insertIdx idx k v).map Prod.fst).Nodup := by
  induction idx with
  | nil => simp [insertIdx]
  | cons e rest ih =>
      obtain ⟨a, b⟩ := e
      simp only [List.map_cons, List.nodup_cons] at h
      by_cases he : a = k
      · subst he
        simp only [insertIdx, eq_self_iff_true, if_true, List.map_cons,
          List.nodup_cons]
        exact ⟨h.1, h.2⟩
      · simp only [insertIdx, he, if_false, List.map_cons, List.nodup_cons]
        refine ⟨fun hmem => ?_, ih h.2⟩
        rcases List.mem_cons.mp (keys_insert_subset rest k v hmem) with h1 | h1
        · exact he h1
        · exact h.1 h1

theorem countKey_eq_zero (idx : Index) (k : String)
    (h : k ∉ idx.map Prod.fst) : countKey idx k = 0 := by
  induction idx with
  | nil => simp [countKey]
  | cons e rest ih =>
      obtain ⟨a, b⟩ := e
      simp only [List.map_cons, List.mem_cons, not_or] at h
      have he : ¬(a = k) := fun hk => h.1 hk.symm
      have h2 := ih h.2
      simp only [countKey, List.filter_cons] at h2 ⊢
      simp [he, h2]

theorem countKey_insert_self (idx : Index) (k v : String)
    (h : (idx.map Prod.fst).Nodup) : countKey (insertIdx idx k v) k = 1 := by
  induction idx with
  | nil => simp [insertIdx, countKey]
  | cons e rest ih =>
      obtain ⟨a, b⟩ := e
      simp only [List.map_cons, List.nodup_cons] at h
      by_cases he : a = k
      · subst he
        have h0 : countKey rest a = 0 := countKey_eq_zero rest a h.1
        simp only [countKey] at h0
        simp [insertIdx, countKey, List.filter_cons, h0]
      · have h2 := ih h.2
        simp only [countKey] at h2
        simp [insertIdx, he, countKey, List.filter_cons, h2]

/-! ## C1: the content hasher -/

theorem sha1_length (msg : List Nat) : (sha1 msg).length = 20 := by
  simp [sha1, be4]

theorem sha1_bytes_lt (msg : List Nat) : ∀ b ∈ sha1 msg, b < 256 := by
  intro b hb
  simp only [sha1, be4, List.append_assoc, List.mem_append, List.mem_cons,
    List.mem_singleton, List.not_mem_nil, or_false] at hb
  rcases hb with h | h | h | h | h <;>
    rcases h with h | h | h | h <;>
      (subst h; exact Nat.mod_lt _ (by norm_num))

theorem hexTable_getD_mem (n : Nat) : hexTable.getD n '0' ∈ hexTable := by
  by_cases h : n < hexTable.length
  · rw [List.getD_eq_getElem _ _ h]
    exact List.getElem_mem h
  · rw [List.getD_eq_default _ _ (Nat.le_of_not_lt h)]
    simp [hexTable]

theorem flatMap_pair_length {α : Type} (l : List α) (f g : α → Char) :
    (l.flatMap (fun b => [f b, g b])).length = 2 * l.length := by
  induction l with
  | nil => simp
  | cons x xs ih => simp [ih]; omega

theorem contains_of_mem {c : Char} {l : List Char} (h : c ∈ l) :
    l.contains c = true := by
  rw [List.contains_iff_exists_mem_beq]
  exact ⟨c, h, by simp⟩

set_option maxRecDepth 20000 in
/-- Claim C1: the content hasher renders the SHA-1 digest as a
40-character lowercase hexadecimal string — two hex characters per
digest byte, most-significant nibble first, no separators or prefix —
and hashing the bytes `hello` yields exactly
`aaf4c61ddcc5e8a2dabede0f3b482cd9aea9434d`. -/
theorem C1_sha1_hex_digest :
    (∀ bs : List Nat,
      (sha1_hex bs).length = 40 ∧
      (sha1_hex bs).data =
        (sha1 bs).flatMap
          (fun b => [hexTable.getD (b / 16) '0', hexTable.getD (b % 16) '0']) ∧
      ((sha1_hex bs).data.all (fun c => hexTable.contains c)) = true) ∧
    sha1_hex [104, 101, 108, 108, 111] = "aaf4c61ddcc5e8a2dabede0f3b482cd9aea9434d" := by
  constructor
  · intro bs
    have hfun : (fun b => [hexTable.getD (b >>> 4) '0', hexTable.getD (b &&& 15) '0']) =
        (fun b : Nat => [hexTable.getD (b / 16) '0', hexTable.getD (b % 16) '0']) := by
      funext b
      have h1 : b >>> 4 = b / 16 := by
        rw [Nat.shiftRight_eq_div_pow]
      have h2 : b &&& 15 = b % 16 := by
        have := Nat.and_pow_two_sub_one_eq_mod b 4
        norm_num at this
        exact this
      rw [h1, h2]
    have hdata : (sha1_hex bs).data =
        (sha1 bs).flatMap
          (fun b => [hexTable.getD (b >>> 4) '0', hexTable.getD (b &&& 15) '0']) := rfl
    refine ⟨?_, ?_, ?_⟩
    · show (sha1_hex bs).data.length = 40
      rw [hdata, flatMap_pair_length, sha1_length]
    · rw [hdata, hfun]
    · rw [List.all_eq_true]
      intro c hc
      rw [hdata] at hc
      simp only [List.mem_flatMap, List.mem_cons, List.not_mem_nil,
        or_false] at hc
      obtain ⟨b, _, hc | hc⟩ := hc <;> (subst hc; exact contains_of_mem (hexTable_getD_mem _))
  · decide

/-! ## `stage_file` inversion -/

/-- What a successful `stage_file` tells us: the file was read, the
path normalized, the index got exactly the one insertion, the world
is unchanged except possibly one new object, and an existing object
at the digest was left alone. -/
theorem stage_file_ok_inv {st : St} {p : Path} {idx : Index} {st' : St} {idx' : Index}
    (h : stage_file st p idx = (Except.ok st', idx')) :
    ∃ data rel, readFile st p = some data ∧
      to_repo_relative st p = Except.ok rel ∧
      idx' = insertIdx idx rel (sha1_hex data) ∧
      st'.root = st.root ∧ st'.objectsWritable = st.objectsWritable ∧
      st'.cwdPath = st.cwdPath ∧ st'.cwdOk = st.cwdOk ∧
      (((alookup st.objects (sha1_hex data)).isSome ∧ st'.objects = st.objects) ∨
        (alookup st.objects (sha1_hex data) = none ∧ st.objectsWritable = true ∧
          st'.objects = (sha1_hex data, data) :: st.objects)) := by
  cases hread : readFile st p with
  | none => simp [stage_file, hread] at h
  | some data =>
      refine ⟨data, ?_⟩
      cases hobj : alookup st.objects (sha1_hex data) with
      | some b =>
          cases hrel : to_repo_relative st p with
          | error e => simp [stage_file, hread, hobj, hrel] at h
          | ok rel =>
              simp only [stage_file, hread, hobj, Option.isSome_some, if_true,
                hrel, Prod.mk.injEq, Except.ok.injEq] at h
              obtain ⟨rfl, rfl⟩ := h
              exact ⟨rel, rfl, rfl, rfl, rfl, rfl, rfl, rfl, Or.inl ⟨by simp, rfl⟩⟩
      | none =>
          by_cases hw : st.objectsWritable
          · cases hrel : to_repo_relative st p with
            | error e => simp [stage_file, hread, hobj, hw, hrel] at h
            | ok rel =>
                simp only [stage_file, hread, hobj, Option.isSome_none,
                  Bool.false_eq_true, if_false, hw, if_true, hrel,
                  Prod.mk.injEq, Except.ok.injEq] at h
                obtain ⟨rfl, rfl⟩ := h
                exact ⟨rel, rfl, rfl, rfl, rfl, (by simp [hw]), rfl, rfl,
                  Or.inr ⟨rfl, (by simp [hw]), rfl⟩⟩
          · simp [stage_file, hread, hobj, hw] at h

/-- On failure `stage_file` has not touched the index buffer. -/
theorem stage_file_err_inv {st : St} {p : Path} {idx : Index} {e : String} {idx' : Index}
    (h : stage_file st p idx = (Except.error e, idx')) : idx' = idx := by
  cases hread : readFile st p with
  | none => simp [stage_file, hread] at h; exact h.2.symm
  | some data =>
      cases hobj : alookup st.objects (sha1_hex data) with
      | some b =>
          cases hrel : to_repo_relative st p with
          | error e' =>
              simp [stage_file, hread, hobj, hrel] at h
              exact h.2.symm
          | ok rel => simp [stage_file, hread, hobj, hrel] at h
      | none =>
          by_cases hw : st.objectsWritable
          · cases hrel : to_repo_relative st p with
            | error e' =>
                simp [stage_file, hread, hobj, hw, hrel] at h
                exact h.2.symm
            | ok rel => simp [stage_file, hread, hobj, hw, hrel] at h
          · simp [stage_file, hread, hobj, hw] at h
            exact h.2.symm

/-- `stage_file` succeeds when the file is readable, the object area
writable and the cwd determinable, and then the index insertion is
at the normalized path. -/
theorem stage_file_ok_of {st : St} {p : Path} {idx : Index} {data : List Nat}
    (hread : readFile st p = some data) (hw : st.objectsWritable = true)
    (hc : st.cwdOk = true) :
    ∃ st' rel, stage_file st p idx = (Except.ok st', insertIdx idx rel (sha1_hex data)) ∧
      to_repo_relative st p = Except.ok rel := by
  have hrel : to_repo_relative st p =
      Except.ok (renderPath
        (if st.cwdPath <+: (if p.absolute then p else ⟨true, st.cwdPath ++ p.comps⟩).comps
          then ⟨false, (if p.absolute then p else ⟨true, st.cwdPath ++ p.comps⟩).comps.drop st.cwdPath.length⟩
          else (if p.absolute then p else ⟨true, st.cwdPath ++ p.comps⟩))) := by
    simp [to_repo_relative, hc]
  cases hobj : alookup st.objects (sha1_hex data) with
  | some b => exact ⟨st, _, by simp [stage_file, hread, hobj, hrel], hrel⟩
  | none =>
      exact ⟨{ st with objects := (sha1_hex data, data) :: st.objects }, _,
        by simp [stage_file, hread, hobj, hw, hrel], hrel⟩

theorem alookup_none_not_mem {α : Type} {l : List (String × α)} {k : String}
    (h : alookup l k = none) : k ∉ l.map Prod.fst := by
  induction l with
  | nil => simp
  | cons e rest ih =>
      obtain ⟨a, b⟩ := e
      by_cases he : a = k
      · simp [alookup, he] at h
      · simp only [alookup, he, if_false] at h
        simp only [List.map_cons, List.mem_cons, not_or]
        exact ⟨fun hk => he hk.symm, ih h⟩

/-- A successful `stage_file` never removes or overwrites a stored
object. -/
theorem stage_objects_mono {st : St} {p : Path} {idx : Index} {st' : St} {idx' : Index}
    (h : stage_file st p idx = (Except.ok st', idx')) :
    ∀ d b, alookup st.objects d = some b → alookup st'.objects d = some b := by
  obtain ⟨data, rel, _, _, _, _, _, _, _, hobj⟩ := stage_file_ok_inv h
  intro d b hd
  rcases hobj with ⟨_, heq⟩ | ⟨hnone, _, heq⟩
  · rw [heq]; exact hd
  · rw [heq]
    simp only [alookup]
    by_cases hdd : sha1_hex data = d
    · rw [hdd] at hnone
      rw [hnone] at hd
      cases hd
    · simp [hdd, hd]

/-- A successful `stage_file` keeps the object store keyed uniquely
by digest. -/
theorem stage_objects_nodup {st : St} {p : Path} {idx : Index} {st' : St} {idx' : Index}
    (h : stage_file st p idx = (Except.ok st', idx'))
    (hn : (st.objects.map Prod.fst).Nodup) : (st'.objects.map Prod.fst).Nodup := by
  obtain ⟨data, rel, _, _, _, _, _, _, _, hobj⟩ := stage_file_ok_inv h
  rcases hobj with ⟨_, heq⟩ | ⟨hnone, _, heq⟩
  · rw [heq]; exact hn
  · rw [heq]
    simp only [List.map_cons, List.nodup_cons]
    exact ⟨alookup_none_not_mem hnone, hn⟩

/-- `to_repo_relative` reads only the cwd fields of the state. -/
theorem to_repo_relative_cwd_eq {st st' : St} (p : Path)
    (h1 : st'.cwdPath = st.cwdPath) (h2 : st'.cwdOk = st.cwdOk) :
    to_repo_relative st' p = to_repo_relative st p := by
  simp [to_repo_relative, h1, h2]

/-! ## C2: write-once blob store, deduplication by content -/

/-- Claim C2: stored blobs are never overwritten and a blob write is
skipped when an object already exists at that digest, so the store
stays uniquely keyed by digest; staging two different paths with
identical content from an empty store yields exactly one stored
object, and both paths map to that one digest in the index. -/
theorem C2_blob_write_once :
    (∀ (st : St) (p : Path) (idx : Index) (st' : St) (idx' : Index),
        stage_file st p idx = (Except.ok st', idx') →
        (∀ d b, alookup st.objects d = some b → alookup st'.objects d = some b) ∧
        ((st.objects.map Prod.fst).Nodup → (st'.objects.map Prod.fst).Nodup)) ∧
    (∀ (st : St) (p : Path) (idx : Index) (data : List Nat) (st' : St) (idx' : Index),
        readFile st p = some data →
        (alookup st.objects (sha1_hex data)).isSome →
        stage_file st p idx = (Except.ok st', idx') →
        st'.objects = st.objects) ∧
    (∀ (st : St) (p1 p2 : Path) (c : List Nat) (idx0 : Index)
        (st1 : St) (idx1 : Index) (st2 : St) (idx2 : Index) (rel1 rel2 : String),
        st.objects = [] →
        readFile st p1 = some c →
        stage_file st p1 idx0 = (Except.ok st1, idx1) →
        readFile st1 p2 = some c →
        stage_file st1 p2 idx1 = (Except.ok st2, idx2) →
        to_repo_relative st p1 = Except.ok rel1 →
        to_repo_relative st1 p2 = Except.ok rel2 →
        rel1 ≠ rel2 →
        st2.objects = [(sha1_hex c, c)] ∧
        alookup idx2 rel1 = some (sha1_hex c) ∧
        alookup idx2 rel2 = some (sha1_hex c)) := by
  refine ⟨fun st p idx st' idx' h => ⟨stage_objects_mono h, stage_objects_nodup h⟩,
    fun st p idx data st' idx' hread hsome h => ?_, ?_⟩
  · obtain ⟨data', rel, hread', _, _, _, _, _, _, hobj⟩ := stage_file_ok_inv h
    rw [hread] at hread'
    obtain rfl : data = data' := by injection hread'
    rcases hobj with ⟨_, heq⟩ | ⟨hnone, _, _⟩
    · exact heq
    · rw [hnone] at hsome; cases hsome
  · intro st p1 p2 c idx0 st1 idx1 st2 idx2 rel1 rel2 hempty hread1 h1 hread2 h2
      hrel1 hrel2 hne
    obtain ⟨d1, r1, hrd1, hr1, hidx1, _, _, _, _, hobj1⟩ := stage_file_ok_inv h1
    rw [hread1] at hrd1
    obtain rfl : c = d1 := by injection hrd1
    rw [hrel1] at hr1
    obtain rfl : rel1 = r1 := by injection hr1
    have hlook0 : alookup st.objects (sha1_hex c) = none := by
      rw [hempty]; rfl
    rcases hobj1 with ⟨hsome, _⟩ | ⟨_, _, hobjs1⟩
    · rw [hlook0] at hsome; cases hsome
    rw [hempty] at hobjs1
    obtain ⟨d2, r2, hrd2, hr2, hidx2, _, _, _, _, hobj2⟩ := stage_file_ok_inv h2
    rw [hread2] at hrd2
    obtain rfl : c = d2 := by injection hrd2
    rw [hrel2] at hr2
    obtain rfl : rel2 = r2 := by injection hr2
    have hlook1 : alookup st1.objects (sha1_hex c) = some c := by
      rw [hobjs1]; simp [alookup]
    rcases hobj2 with ⟨_, hobjs2⟩ | ⟨hnone, _, _⟩
    · refine ⟨by rw [hobjs2, hobjs1], ?_, ?_⟩
      · rw [hidx2, alookup_insert_ne _ _ _ _ hne, hidx1, alookup_insert_self]
      · rw [hidx2, alookup_insert_self]
    · rw [hlook1] at hnone; cases hnone

/-! ## C3: re-staging a path overwrites its index entry, keeps blobs -/

/-- Claim C3: staging the same path twice with different content
leaves exactly one index entry for that path, holding the digest of
the latest content, while the blob store retains the old and the new
object and deletes nothing. -/
theorem C3_restage_latest_wins :
    ∀ (st : St) (p : Path) (idx0 : Index) (st1 : St) (idx1 : Index)
      (root2 : FsTree) (st2 : St) (idx2 : Index) (c1 c2 : List Nat) (rel : String),
      readFile st p = some c1 →
      stage_file st p idx0 = (Except.ok st1, idx1) →
      readFile { st1 with root := root2 } p = some c2 →
      stage_file { st1 with root := root2 } p idx1 = (Except.ok st2, idx2) →
      to_repo_relative st p = Except.ok rel →
      sha1_hex c1 ≠ sha1_hex c2 →
      (idx0.map Prod.fst).Nodup →
      countKey idx2 rel = 1 ∧
      alookup idx2 rel = some (sha1_hex c2) ∧
      (alookup st2.objects (sha1_hex c1)).isSome ∧
      (alookup st2.objects (sha1_hex c2)).isSome ∧
      (∀ d b, alookup st1.objects d = some b → alookup st2.objects d = some b) := by
  intro st p idx0 st1 idx1 root2 st2 idx2 c1 c2 rel hread1 h1 hread2 h2 hrel hdne hnodup
  obtain ⟨d1, r1, hrd1, hr1, hidx1, _, _, hcp1, hco1, hobj1⟩ := stage_file_ok_inv h1
  rw [hread1] at hrd1
  obtain rfl : c1 = d1 := by injection hrd1
  rw [hrel] at hr1
  obtain rfl : rel = r1 := by injection hr1
  obtain ⟨d2, r2, hrd2, hr2, hidx2, _, _, _, _, hobj2⟩ := stage_file_ok_inv h2
  rw [hread2] at hrd2
  obtain rfl : c2 = d2 := by injection hrd2
  have hrel2 : to_repo_relative { st1 with root := root2 } p = to_repo_relative st p :=
    to_repo_relative_cwd_eq p hcp1 hco1
  rw [hrel2, hrel] at hr2
  obtain rfl : rel = r2 := by injection hr2
  have hsome1 : (alookup st1.objects (sha1_hex c1)).isSome := by
    rcases hobj1 with ⟨hs, heq⟩ | ⟨_, _, heq⟩
    · rw [heq]; exact hs
    · rw [heq]; simp [alookup]
  refine ⟨?_, ?_, ?_, ?_, ?_⟩
  · rw [hidx2, hidx1]
    exact countKey_insert_self _ _ _ (insertIdx_keys_nodup _ _ _ hnodup)
  · rw [hidx2, alookup_insert_self]
  · rcases hobj2 with ⟨_, heq⟩ | ⟨_, _, heq⟩
    · rw [heq]; exact hsome1
    · rw [heq]
      simp only [alookup]
      rw [if_neg (Ne.symm hdne)]
      exact hsome1
  · rcases hobj2 with ⟨hs, heq⟩ | ⟨_, _, heq⟩
    · rw [heq]; exact hs
    · rw [heq]; simp [alookup]
  · exact @stage_objects_mono { st1 with root := root2 } p idx1 st2 idx2 h2

/-! ## C10: the frame of `stage_file` on the index -/

/-- Claim C10: a successful `stage_file` changes at most the index
entry keyed by the normalized path, leaving every other key's binding
unchanged, and a failing `stage_file` leaves the index exactly as it
was. -/
theorem C10_stage_file_frame :
    ∀ (st : St) (p : Path) (idx : Index),
      (∀ (st' : St) (idx' : Index) (rel : String),
          stage_file st p idx = (Except.ok st', idx') →
          to_repo_relative st p = Except.ok rel →
          ∀ k, k ≠ rel → alookup idx' k = alookup idx k) ∧
      (∀ (e : String) (idx' : Index),
          stage_file st p idx = (Except.error e, idx') → idx' = idx) := by
  intro st p idx
  refine ⟨fun st' idx' rel h hrel k hk => ?_, fun e idx' h => stage_file_err_inv h⟩
  obtain ⟨data, r, _, hr, hidx, _⟩ := stage_file_ok_inv h
  rw [hrel] at hr
  obtain rfl : rel = r := by injection hr
  rw [hidx]
  exact alookup_insert_ne _ _ _ _ hk

set_option maxRecDepth 40000 in
/-- Witness for C2: two files `a`, `b` with the bytes `hello`, staged
from an empty object store: one object, both index keys at its digest. -/
theorem C2_blob_write_once_witness :
    stage_file
        ⟨FsTree.dir true [("a", FsTree.file [104, 101, 108, 108, 111]),
          ("b", FsTree.file [104, 101, 108, 108, 111])], [], true, ["w"], true⟩
        ⟨false, ["a"]⟩ [] =
      (Except.ok
        ⟨FsTree.dir true [("a", FsTree.file [104, 101, 108, 108, 111]),
          ("b", FsTree.file [104, 101, 108, 108, 111])],
         [(sha1_hex [104, 101, 108, 108, 111], [104, 101, 108, 108, 111])],
         true, ["w"], true⟩,
       [("a", sha1_hex [104, 101, 108, 108, 111])]) ∧
    (([(sha1_hex [104, 101, 108, 108, 111], [104, 101, 108, 108, 111])] :
        List (String × List Nat)) =
      [(sha1_hex [104, 101, 108, 108, 111], [104, 101, 108, 108, 111])] ∧
     alookup [("a", sha1_hex [104, 101, 108, 108, 111]),
       ("b", sha1_hex [104, 101, 108, 108, 111])] "a" =
         some (sha1_hex [104, 101, 108, 108, 111]) ∧
     alookup [("a", sha1_hex [104, 101, 108, 108, 111]),
       ("b", sha1_hex [104, 101, 108, 108, 111])] "b" =
         some (sha1_hex [104, 101, 108, 108, 111])) :=
  ⟨rfl,
   C2_blob_write_once.2.2
     ⟨FsTree.dir true [("a", FsTree.file [104, 101, 108, 108, 111]),
       ("b", FsTree.file [104, 101, 108, 108, 111])], [], true, ["w"], true⟩
     ⟨false, ["a"]⟩ ⟨false, ["b"]⟩ [104, 101, 108, 108, 111] []
     ⟨FsTree.dir true [("a", FsTree.file [104, 101, 108, 108, 111]),
       ("b", FsTree.file [104, 101, 108, 108, 111])],
      [(sha1_hex [104, 101, 108, 108, 111], [104, 101, 108, 108, 111])],
      true, ["w"], true⟩
     [("a", sha1_hex [104, 101, 108, 108, 111])]
     ⟨FsTree.dir true [("a", FsTree.file [104, 101, 108, 108, 111]),
       ("b", FsTree.file [104, 101, 108, 108, 111])],
      [(sha1_hex [104, 101, 108, 108, 111], [104, 101, 108, 108, 111])],
      true, ["w"], true⟩
     [("a", sha1_hex [104, 101, 108, 108, 111]),
      ("b", sha1_hex [104, 101, 108, 108, 111])]
     "a" "b" rfl rfl rfl rfl rfl rfl rfl (by decide)⟩

set_option maxRecDepth 40000 in
/-- Witness for C3: the file `f` is staged with content `a`, changed
to `b`, and staged again. -/
theorem C3_restage_latest_wins_witness :
    stage_file ⟨FsTree.dir true [("f", FsTree.file [98])],
        [(sha1_hex [97], [97])], true, ["w"], true⟩ ⟨false, ["f"]⟩
        [("f", sha1_hex [97])] =
      (Except.ok ⟨FsTree.dir true [("f", FsTree.file [98])],
        [(sha1_hex [98], [98]), (sha1_hex [97], [97])], true, ["w"], true⟩,
       [("f", sha1_hex [98])]) ∧
    (countKey [("f", sha1_hex [98])] "f" = 1 ∧
     alookup [("f", sha1_hex [98])] "f" = some (sha1_hex [98]) ∧
     (alookup [(sha1_hex [98], [98]), (sha1_hex [97], [97])] (sha1_hex [97])).isSome ∧
     (alookup [(sha1_hex [98], [98]), (sha1_hex [97], [97])] (sha1_hex [98])).isSome ∧
     (∀ d b, alookup [(sha1_hex [97], [97])] d = some b →
        alookup [(sha1_hex [98], [98]), (sha1_hex [97], [97])] d = some b)) :=
  ⟨rfl,
   C3_restage_latest_wins
     ⟨FsTree.dir true [("f", FsTree.file [97])], [], true, ["w"], true⟩
     ⟨false, ["f"]⟩ []
     ⟨FsTree.dir true [("f", FsTree.file [97])], [(sha1_hex [97], [97])],
      true, ["w"], true⟩
     [("f", sha1_hex [97])]
     (FsTree.dir true [("f", FsTree.file [98])])
     ⟨FsTree.dir true [("f", FsTree.file [98])],
      [(sha1_hex [98], [98]), (sha1_hex [97], [97])], true, ["w"], true⟩
     [("f", sha1_hex [98])]
     [97] [98] "f" rfl rfl rfl rfl rfl (by decide) (by simp)⟩

set_option maxRecDepth 40000 in
/-- Witness for C10: staging `f` on top of an index holding `g`
leaves the binding of `g` alone; a failing stage of a missing path
leaves the index untouched. -/
theorem C10_stage_file_frame_witness :
    stage_file ⟨FsTree.dir true [("f", FsTree.file [97])], [], true, ["w"], true⟩
        ⟨false, ["f"]⟩ [("g", "zz")] =
      (Except.ok ⟨FsTree.dir true [("f", FsTree.file [97])],
        [(sha1_hex [97], [97])], true, ["w"], true⟩,
       [("g", "zz"), ("f", sha1_hex [97])]) ∧
    alookup [("g", "zz"), ("f", sha1_hex [97])] "g" = alookup [("g", "zz")] "g" ∧
    stage_file ⟨FsTree.dir true [("f", FsTree.file [97])], [], true, ["w"], true⟩
        ⟨false, ["nope"]⟩ [("g", "zz")] =
      (Except.error "reading nope", [("g", "zz")]) ∧
    ([("g", "zz")] : Index) = [("g", "zz")] :=
  ⟨rfl,
   (C10_stage_file_frame
       ⟨FsTree.dir true [("f", FsTree.file [97])], [], true, ["w"], true⟩
       ⟨false, ["f"]⟩ [("g", "zz")]).1
     ⟨FsTree.dir true [("f", FsTree.file [97])],
      [(sha1_hex [97], [97])], true, ["w"], true⟩
     [("g", "zz"), ("f", sha1_hex [97])] "f" rfl rfl "g" (by decide),
   rfl,
   (C10_stage_file_frame
       ⟨FsTree.dir true [("f", FsTree.file [97])], [], true, ["w"], true⟩
       ⟨false, ["nope"]⟩ [("g", "zz")]).2
     "reading nope" [("g", "zz")] rfl⟩

/-! ## C7: path normalization -/

/-- Claim C7: `to_repo_relative` resolves a relative path against the
cwd and expresses it relative to the cwd; an absolute path under the
cwd is likewise re-expressed relative to it; an absolute path not
under the cwd is returned as-is without failing; and the one failure
mode is an undeterminable cwd. -/
theorem C7_to_repo_relative_spec :
    ∀ (st : St) (p : Path),
      (st.cwdOk = true → p.absolute = false →
        to_repo_relative st p = Except.ok (renderPath ⟨false, p.comps⟩)) ∧
      (st.cwdOk = true → p.absolute = true → st.cwdPath <+: p.comps →
        to_repo_relative st p =
          Except.ok (renderPath ⟨false, p.comps.drop st.cwdPath.length⟩)) ∧
      (st.cwdOk = true → p.absolute = true → ¬st.cwdPath <+: p.comps →
        to_repo_relative st p = Except.ok (renderPath p)) ∧
      ((∃ e, to_repo_relative st p = Except.error e) ↔ st.cwdOk = false) := by
  intro st p
  obtain ⟨ab, cs⟩ := p
  refine ⟨fun hc hab => ?_, fun hc hab hpre => ?_, fun hc hab hpre => ?_, ?_⟩
  · subst hab
    simp only [to_repo_relative, hc, if_true, Bool.false_eq_true, if_false]
    rw [if_pos (List.prefix_append st.cwdPath cs)]
    simp [List.drop_left]
  · subst hab
    simp only [to_repo_relative, hc, if_true]
    rw [if_pos (by simpa using hpre)]
  · subst hab
    simp only [to_repo_relative, hc, if_true]
    rw [if_neg (by simpa using hpre)]
  · cases hc : st.cwdOk with
    | true => simp [to_repo_relative, hc]
    | false => simp [to_repo_relative, hc]

/-- Witness for C7: the four cases of path normalization at concrete
paths, with cwd `/w`. -/
theorem C7_to_repo_relative_spec_witness :
    to_repo_relative ⟨FsTree.dir true [], [], true, ["w"], true⟩ ⟨false, ["x", "y"]⟩ =
      Except.ok "x/y" ∧
    to_repo_relative ⟨FsTree.dir true [], [], true, ["w"], true⟩ ⟨true, ["w", "y"]⟩ =
      Except.ok "y" ∧
    to_repo_relative ⟨FsTree.dir true [], [], true, ["w"], true⟩ ⟨true, ["etc", "z"]⟩ =
      Except.ok "/etc/z" ∧
    ((∃ e, to_repo_relative ⟨FsTree.dir true [], [], true, ["w"], false⟩
        ⟨false, ["x"]⟩ = Except.error e) ↔
      (⟨FsTree.dir true [], [], true, ["w"], false⟩ : St).cwdOk = false) :=
  ⟨(C7_to_repo_relative_spec ⟨FsTree.dir true [], [], true, ["w"], true⟩
      ⟨false, ["x", "y"]⟩).1 rfl rfl,
   (C7_to_repo_relative_spec ⟨FsTree.dir true [], [], true, ["w"], true⟩
      ⟨true, ["w", "y"]⟩).2.1 rfl rfl (by decide),
   (C7_to_repo_relative_spec ⟨FsTree.dir true [], [], true, ["w"], true⟩
      ⟨true, ["etc", "z"]⟩).2.2.1 rfl rfl (by decide),
   (C7_to_repo_relative_spec ⟨FsTree.dir true [], [], true, ["w"], false⟩
      ⟨false, ["x"]⟩).2.2.2⟩

/-! ## C6: loading the staging index -/

/-- Claim C6: loading with no persisted index file yields the empty
mapping and is not an error; loading a persisted file that parses
yields its mapping; loading a persisted file that does not parse into
the string-to-string shape fails with a parse error whose message
names `index.json`. -/
theorem C6_load_index_spec :
    load_index none = Except.ok [] ∧
    (∀ s idx, parseIndex s = some idx → load_index (some s) = Except.ok idx) ∧
    (∀ s, parseIndex s = none →
      ∃ e, load_index (some s) = Except.error e ∧ "index.json".data <:+: e.data) := by
  refine ⟨rfl, fun s idx h => ?_, fun s h => ?_⟩
  · simp [load_index, h]
  · exact ⟨"parsing index.json as JSON", by simp [load_index, h], by decide⟩

/-- Witness for C6: a file holding `not json` fails to parse and the
error names `index.json`. -/
theorem C6_load_index_spec_witness :
    parseIndex "not json" = none ∧
    (∃ e, load_index (some "not json") = Except.error e ∧
      "index.json".data <:+: e.data) :=
  ⟨rfl, C6_load_index_spec.2.2 "not json" rfl⟩

/-! ## The serde_json round trip (C4) -/

theorem hexVal_hexDig (x : Nat) (h : x < 16) : hexVal (hexDig x) = some x := by
  interval_cases x <;> decide

theorem skipWs_ws_cons (c : Char) (h : isJsonWs c = true) (l : List Char) :
    skipWs (c :: l) = skipWs l := by
  simp [skipWs, h]

theorem skipWs_not_ws (c : Char) (h : isJsonWs c = false) (l : List Char) :
    skipWs (c :: l) = c :: l := by
  simp [skipWs, h]

theorem skipWs_renderStr (s : String) (t : List Char) :
    skipWs (renderStr s ++ t) = renderStr s ++ t := by
  simp [renderStr, skipWs, isJsonWs]

/-- Parsing a `\u00XX` escape built from two hex digits. -/
theorem parseStrBody_u (a b : Nat) (ha : a < 16) (hb : b < 16)
    (hv : Nat.isValidChar (a * 16 + b)) (t : List Char) :
    parseStrBody ('\\' :: 'u' :: '0' :: '0' :: hexDig a :: hexDig b :: t) =
      (parseStrBody t).map (fun br => (Char.ofNat (a * 16 + b) :: br.1, br.2)) := by
  rw [parseStrBody.eq_def]
  simp [show hexVal '0' = some 0 from by decide, hexVal_hexDig _ ha,
    hexVal_hexDig _ hb, hv]

/-- Parsing one escaped character: the parser consumes exactly the
escape and emits the character. -/
theorem parseStrBody_escChar (c : Char) (t : List Char) :
    parseStrBody (escChar c ++ t) =
      (parseStrBody t).map (fun br => (c :: br.1, br.2)) := by
  by_cases h1 : c = '"'
  · subst h1; rw [show escChar '"' ++ t = '\\' :: '"' :: t from rfl,
      parseStrBody.eq_def]
    simp [escDecode]
  by_cases h2 : c = '\\'
  · subst h2; rw [show escChar '\\' ++ t = '\\' :: '\\' :: t from rfl,
      parseStrBody.eq_def]
    simp [escDecode]
  by_cases h3 : c = '\x08'
  · subst h3; rw [show escChar '\x08' ++ t = '\\' :: 'b' :: t from rfl,
      parseStrBody.eq_def]
    simp [escDecode]
  by_cases h4 : c = '\t'
  · subst h4; rw [show escChar '\t' ++ t = '\\' :: 't' :: t from rfl,
      parseStrBody.eq_def]
    simp [escDecode]
  by_cases h5 : c = '\n'
  · subst h5; rw [show escChar '\n' ++ t = '\\' :: 'n' :: t from rfl,
      parseStrBody.eq_def]
    simp [escDecode]
  by_cases h6 : c = '\x0c'
  · subst h6; rw [show escChar '\x0c' ++ t = '\\' :: 'f' :: t from rfl,
      parseStrBody.eq_def]
    simp [escDecode]
  by_cases h7 : c = '\r'
  · subst h7; rw [show escChar '\r' ++ t = '\\' :: 'r' :: t from rfl,
      parseStrBody.eq_def]
    simp [escDecode]
  by_cases h8 : c.toNat < 32
  · have hd : c.toNat / 16 < 16 := by omega
    have hm : c.toNat % 16 < 16 := by omega
    have hn : c.toNat / 16 * 16 + c.toNat % 16 = c.toNat := by omega
    have key := parseStrBody_u (c.toNat / 16) (c.toNat % 16) hd hm
      (by rw [hn]; left; omega) t
    rw [hn] at key
    simp only [escChar, h1, h2, h3, h4, h5, h6, h7, h8, if_true, if_false,
      List.cons_append, List.nil_append]
    rw [key]
    simp only [Char.ofNat_toNat]
  · simp only [escChar, h1, h2, h3, h4, h5, h6, h7, h8, if_false,
      List.cons_append, List.nil_append]
    rw [parseStrBody.eq_def]
    simp only [h1, h2, if_false]
    rw [if_pos (show 32 ≤ c.toNat by omega)]

theorem parseStrBody_escBody (cs : List Char) (t : List Char) :
    parseStrBody (cs.flatMap escChar ++ '"' :: t) = some (cs, t) := by
  induction cs with
  | nil =>
      rw [List.flatMap_nil, List.nil_append, parseStrBody.eq_def]
      simp
  | cons c cs ih =>
      simp [List.flatMap_cons, List.append_assoc, parseStrBody_escChar, ih]

theorem parseJStr_renderStr (s : String) (t : List Char) :
    parseJStr (renderStr s ++ t) = some (s, t) := by
  obtain ⟨d⟩ := s
  simp [renderStr, parseJStr, List.append_assoc, parseStrBody_escBody]

theorem renderMembers_length (m : Index) : m.length ≤ (renderMembers m).length := by
  induction m with
  | nil => simp [renderMembers]
  | cons kv rest ih =>
      simp only [renderMembers, List.length_cons, List.length_append]
      omega

/-- The members round trip: parsing what `renderMembers` emitted
folds the rendered entries into the accumulator in order. -/
theorem parseMembers_rt (m : Index) :
    ∀ (acc : Index) (fuel : Nat), m ≠ [] → m.length ≤ fuel →
      parseMembers fuel acc (skipWs (renderMembers m ++ ['\n', '}'])) =
        some (m.foldl (fun a kv => insertIdx a kv.1 kv.2) acc) := by
  induction m with
  | nil => intro acc fuel h; exact absurd rfl h
  | cons kv rest ih =>
      intro acc fuel _ hfuel
      cases fuel with
      | zero => simp at hfuel
      | succ f =>
          have hws : skipWs (renderMembers (kv :: rest) ++ ['\n', '}']) =
              renderStr kv.1 ++
                (':' :: ' ' :: (renderStr kv.2 ++
                  ((if rest.isEmpty then [] else [',']) ++
                    (renderMembers rest ++ ['\n', '}'])))) := by
            simp only [renderMembers, renderMember, List.cons_append,
              List.append_assoc]
            rw [skipWs_ws_cons _ (by decide), skipWs_ws_cons _ (by decide),
              skipWs_ws_cons _ (by decide)]
            exact skipWs_renderStr _ _
          rw [hws]
          simp only [parseMembers, parseJStr_renderStr,
            skipWs_not_ws ':' (by decide), skipWs_ws_cons ' ' (by decide),
            skipWs_renderStr]
          cases rest with
          | nil =>
              simp only [List.isEmpty_nil, if_true, List.nil_append,
                renderMembers, List.foldl_cons, List.foldl_nil,
                List.cons_append]
              rw [skipWs_ws_cons '\n' (by decide)]
              rw [skipWs_not_ws '}' (by decide)]
              simp [show skipWs ([] : List Char) = [] from rfl]
          | cons kv2 rest2 =>
              simp only [List.isEmpty_cons, if_false, List.cons_append,
                List.foldl_cons, skipWs_not_ws ',' (by decide)]
              have hf : (kv2 :: rest2).length ≤ f := by
                simpa using Nat.lt_of_succ_le hfuel
              have := ih (insertIdx acc kv.1 kv.2) f (by simp) hf
              simpa using this

/-- Inserting a fresh key appends. -/
theorem insertIdx_append_fresh (acc : Index) (k v : String)
    (h : k ∉ acc.map Prod.fst) : insertIdx acc k v = acc ++ [(k, v)] := by
  induction acc with
  | nil => simp [insertIdx]
  | cons e rest ih =>
      obtain ⟨a, b⟩ := e
      simp only [List.map_cons, List.mem_cons, not_or] at h
      have he : ¬(a = k) := fun hk => h.1 hk.symm
      simp [insertIdx, he, ih h.2]

/-- Folding fresh, mutually distinct insertions appends the list. -/
theorem foldl_insert_fresh (m : Index) :
    ∀ acc : Index, (m.map Prod.fst).Nodup →
      (∀ k ∈ m.map Prod.fst, k ∉ acc.map Prod.fst) →
      m.foldl (fun a kv => insertIdx a kv.1 kv.2) acc = acc ++ m := by
  induction m with
  | nil => simp
  | cons kv rest ih =>
      intro acc hnodup hfresh
      obtain ⟨k, v⟩ := kv
      simp only [List.map_cons, List.nodup_cons] at hnodup
      simp only [List.foldl_cons]
      rw [insertIdx_append_fresh acc k v (hfresh k (by simp))]
      rw [ih (acc ++ [(k, v)]) hnodup.2 ?_]
      · simp
      · intro k' hk'
        simp only [List.map_append, List.mem_append, not_or]
        constructor
        · exact fun hmem => hfresh k' (by simp [hk']) hmem
        · intro hkk
          simp only [List.map_cons, List.map_nil, List.mem_singleton] at hkk
          exact hnodup.1 (hkk ▸ hk')

/-- The serde_json round trip on the index encoding. -/
theorem parseIndex_serializeIndex (m : Index) (h : (m.map Prod.fst).Nodup) :
    parseIndex (serializeIndex m) = some m := by
  cases m with
  | nil => rfl
  | cons kv rest =>
      have hser : (serializeIndex (kv :: rest)).data =
          '{' :: (renderMembers (kv :: rest) ++ ['\n', '}']) := by
        simp [serializeIndex]
      have hbody : skipWs (renderMembers (kv :: rest) ++ ['\n', '}']) =
          '"' :: (kv.1.data.flatMap escChar ++
            ('"' :: ':' :: ' ' :: (renderStr kv.2 ++
              ((if rest.isEmpty then [] else [',']) ++
                (renderMembers rest ++ ['\n', '}']))))) := by
        simp only [renderMembers, renderMember, renderStr, List.cons_append,
          List.append_assoc]
        rw [skipWs_ws_cons _ (by decide), skipWs_ws_cons _ (by decide),
          skipWs_ws_cons _ (by decide), skipWs_not_ws '"' (by decide)]
        simp
      have hlen : (kv :: rest).length ≤
          (skipWs (renderMembers (kv :: rest) ++ ['\n', '}'])).length + 1 := by
        rw [hbody]
        have := renderMembers_length rest
        simp only [List.length_cons, List.length_append]
        omega
      have hrt := parseMembers_rt (kv :: rest) []
        ((skipWs (renderMembers (kv :: rest) ++ ['\n', '}'])).length + 1)
        (by simp) hlen
      rw [foldl_insert_fresh (kv :: rest) [] h (by simp)] at hrt
      rw [parseIndex, hser, skipWs_not_ws '{' (by decide)]
      rw [hbody] at hrt
      simpa [hbody] using hrt

/-- Claim C4: saving any index mapping and loading it back yields a
mapping equal to the original — `load ∘ save = id`, the empty mapping
included. -/
theorem C4_save_load_roundtrip :
    ∀ (r : Repo) (idx : Index), (idx.map Prod.fst).Nodup →
      load_index (save_index r idx).indexFile = Except.ok idx := by
  intro r idx h
  simp [save_index, load_index, parseIndex_serializeIndex idx h]

/-- Witness for C4: the round trip at the empty mapping and at a
two-entry mapping. -/
theorem C4_save_load_roundtrip_witness :
    load_index (save_index ⟨⟨FsTree.dir true [], [], true, ["w"], true⟩, true, none, 0⟩
      []).indexFile = Except.ok [] ∧
    load_index (save_index ⟨⟨FsTree.dir true [], [], true, ["w"], true⟩, true, none, 0⟩
      [("fileA.txt", "aaf4c61ddcc5e8a2dabede0f3b482cd9aea9434d"), ("b c", "d\"e")]).indexFile =
      Except.ok [("fileA.txt", "aaf4c61ddcc5e8a2dabede0f3b482cd9aea9434d"), ("b c", "d\"e")] :=
  ⟨C4_save_load_roundtrip ⟨⟨FsTree.dir true [], [], true, ["w"], true⟩, true, none, 0⟩
      [] (by simp),
   C4_save_load_roundtrip ⟨⟨FsTree.dir true [], [], true, ["w"], true⟩, true, none, 0⟩
      [("fileA.txt", "aaf4c61ddcc5e8a2dabede0f3b482cd9aea9434d"), ("b c", "d\"e")]
      (by simp)⟩

/-! ## Truncated index files never parse (C5) -/

theorem prefixSplit {α : Type} {q a b : List α} (h : q <+: a ++ b) :
    q <+: a ∨ ∃ q', q = a ++ q' ∧ q' <+: b := by
  induction a generalizing q with
  | nil => exact Or.inr ⟨q, rfl, by simpa using h⟩
  | cons x a' ih =>
      cases q with
      | nil => exact Or.inl List.nil_prefix
      | cons y q'' =>
          rw [List.cons_append, List.cons_prefix_cons] at h
          obtain ⟨rfl, h⟩ := h
          rcases ih h with h' | ⟨q', rfl, hq'⟩
          · exact Or.inl (by simpa [List.cons_prefix_cons] using h')
          · exact Or.inr ⟨q', rfl, hq'⟩

theorem prefix_cons_cases {α : Type} {q : List α} {x : α} {l : List α}
    (h : q <+: x :: l) : q = [] ∨ ∃ q', q = x :: q' ∧ q' <+: l := by
  cases q with
  | nil => exact Or.inl rfl
  | cons y q' =>
      rw [List.cons_prefix_cons] at h
      exact Or.inr ⟨q', by rw [h.1], h.2⟩

theorem parseMembers_nil (fuel : Nat) (acc : Index) :
    parseMembers fuel acc [] = none := by
  cases fuel with
  | zero => rfl
  | succ f => rfl

/-- Truncations of a two-character escape. -/
theorem parseStrBody_take_two (x : Char) (k : Nat) (hk : k < 2) :
    parseStrBody (List.take k ['\\', x]) = none := by
  match k, hk with
  | 0, _ => rfl
  | 1, _ => rfl

/-- Truncations of a `\u00XX` escape. -/
theorem parseStrBody_take_u (a b : Char) (k : Nat) (hk : k < 6) :
    parseStrBody (List.take k ['\\', 'u', '0', '0', a, b]) = none := by
  match k, hk with
  | 0, _ => rfl
  | 1, _ => rfl
  | 2, _ => rfl
  | 3, _ => rfl
  | 4, _ => rfl
  | 5, _ =>
      show parseStrBody ['\\', 'u', '0', '0', a] = none
      rw [parseStrBody.eq_def]
      simp

/-- A strict prefix of a single escape does not parse as string body. -/
theorem parseStrBody_escChar_strict (c : Char) (q : List Char)
    (hpre : q <+: escChar c) (hne : q ≠ escChar c) : parseStrBody q = none := by
  have hlen : q.length < (escChar c).length :=
    Nat.lt_of_le_of_ne hpre.length_le (fun h => hne (hpre.eq_of_length h))
  have hq : q = (escChar c).take q.length := List.prefix_iff_eq_take.mp hpre
  by_cases h1 : c = '"'
  · subst h1
    rw [hq]; exact parseStrBody_take_two _ _ hlen
  by_cases h2 : c = '\\'
  · subst h2
    rw [hq]; exact parseStrBody_take_two _ _ hlen
  by_cases h3 : c = '\x08'
  · subst h3
    rw [hq]; exact parseStrBody_take_two _ _ hlen
  by_cases h4 : c = '\t'
  · subst h4
    rw [hq]; exact parseStrBody_take_two _ _ hlen
  by_cases h5 : c = '\n'
  · subst h5
    rw [hq]; exact parseStrBody_take_two _ _ hlen
  by_cases h6 : c = '\x0c'
  · subst h6
    rw [hq]; exact parseStrBody_take_two _ _ hlen
  by_cases h7 : c = '\r'
  · subst h7
    rw [hq]; exact parseStrBody_take_two _ _ hlen
  by_cases h8 : c.toNat < 32
  · simp only [escChar, h1, h2, h3, h4, h5, h6, h7, h8, if_true, if_false] at hq hlen
    rw [hq]; exact parseStrBody_take_u _ _ _ hlen
  · simp only [escChar, h1, h2, h3, h4, h5, h6, h7, h8, if_false] at hq hlen
    have h0 : q.length = 0 := by
      simp only [List.length_cons, List.length_nil] at hlen
      omega
    rw [hq, h0]
    rfl

/-- A strict prefix of an escaped string body (with closing quote)
does not parse: the closing quote is missing. -/
theorem parseStrBody_body_strict (cs : List Char) :
    ∀ q, q <+: cs.flatMap escChar ++ ['"'] → q ≠ cs.flatMap escChar ++ ['"'] →
      parseStrBody q = none := by
  induction cs with
  | nil =>
      intro q hpre hne
      simp only [List.flatMap_nil, List.nil_append] at hpre hne
      rcases prefix_cons_cases hpre with rfl | ⟨q', rfl, hq'⟩
      · rfl
      · rw [List.prefix_nil] at hq'
        exact absurd (by rw [hq']) hne
  | cons c cs ih =>
      intro q hpre hne
      rw [List.flatMap_cons, List.append_assoc] at hpre hne
      rcases prefixSplit hpre with hq | ⟨q', rfl, hq'⟩
      · by_cases heq : q = escChar c
        · subst heq
          have hstep := parseStrBody_escChar c []
          rw [List.append_nil] at hstep
          rw [hstep]
          rfl
        · exact parseStrBody_escChar_strict c q hq heq
      · rw [parseStrBody_escChar,
          ih q' hq' (fun h => hne (by rw [h]))]
        rfl

/-- A strict prefix of a rendered string literal does not parse as a
JSON string. -/
theorem parseJStr_renderStr_strict (s : String) (q : List Char)
    (hpre : q <+: renderStr s) (hne : q ≠ renderStr s) : parseJStr q = none := by
  rw [renderStr] at hpre hne
  rcases prefix_cons_cases hpre with rfl | ⟨q', rfl, hq'⟩
  · rfl
  · have hb := parseStrBody_body_strict s.data q' hq'
      (fun h => hne (by rw [h]; simp))
    simp [parseJStr, hb]

theorem renderTail_regroup (kv : String × String) (rest : Index) :
    renderTail (kv :: rest) =
      renderStr kv.1 ++ (':' :: ' ' :: (renderStr kv.2 ++ sepClose rest)) := by
  simp [renderTail, renderMember, sepClose, List.append_assoc]

theorem sepClose_nil : sepClose [] = ['\n', '}'] := rfl

theorem sepClose_cons (kv2 : String × String) (rest2 : Index) :
    sepClose (kv2 :: rest2) = ',' :: '\n' :: ' ' :: ' ' :: renderTail (kv2 :: rest2) := by
  simp [sepClose, renderMembers, renderTail, List.append_assoc]

theorem renderTail_eq_cons (kv : String × String) (rest : Index) :
    renderTail (kv :: rest) =
      '"' :: (kv.1.data.flatMap escChar ++
        ('"' :: ':' :: ' ' :: (renderStr kv.2 ++ sepClose rest))) := by
  simp [renderTail, renderMember, renderStr, sepClose, List.append_assoc]

theorem prefix_all_ws {q l : List Char} (hpre : q <+: l)
    (h : l.all isJsonWs = true) : q.all isJsonWs = true := by
  obtain ⟨t, rfl⟩ := hpre
  simp only [List.all_append, Bool.and_eq_true] at h
  exact h.1

theorem skipWs_eq_nil_of_all_ws {q : List Char} (h : q.all isJsonWs = true) :
    skipWs q = [] := by
  induction q with
  | nil => rfl
  | cons c rest ih =>
      simp only [List.all_cons, Bool.and_eq_true] at h
      rw [skipWs_ws_cons c h.1]
      exact ih h.2

/-- A strict prefix of the serialized members (from the first key to
the closing brace) never parses: truncation is always detected. -/
theorem parseMembers_strict (m : Index) :
    ∀ (fuel : Nat) (acc : Index) (q : List Char), m ≠ [] →
      q <+: renderTail m → q ≠ renderTail m → parseMembers fuel acc q = none := by
  induction m with
  | nil => intro fuel acc q h; exact absurd rfl h
  | cons kv rest ih =>
      intro fuel acc q _ hpre hne
      cases fuel with
      | zero => rfl
      | succ f =>
          rw [renderTail_regroup] at hpre hne
          rcases prefixSplit hpre with hq | ⟨q', rfl, hq'⟩
          · by_cases heq : q = renderStr kv.1
            · subst heq
              have hJ : parseJStr (renderStr kv.1) = some (kv.1, []) := by
                have := parseJStr_renderStr kv.1 []
                rwa [List.append_nil] at this
              rw [parseMembers, hJ]
              rfl
            · have hJ := parseJStr_renderStr_strict kv.1 q hq heq
              rw [parseMembers, hJ]
          · have hJ := parseJStr_renderStr kv.1 q'
            have hq'ne : q' ≠ ':' :: ' ' :: (renderStr kv.2 ++ sepClose rest) :=
              fun h => hne (by rw [h])
            rcases prefix_cons_cases hq' with rfl | ⟨q2, rfl, hq2⟩
            · rw [parseMembers, hJ]
              rfl
            · have hq2ne : q2 ≠ ' ' :: (renderStr kv.2 ++ sepClose rest) :=
                fun h => hq'ne (by rw [h])
              rcases prefix_cons_cases hq2 with rfl | ⟨q3, rfl, hq3⟩
              · rw [parseMembers, hJ]
                rfl
              · have hq3ne : q3 ≠ renderStr kv.2 ++ sepClose rest :=
                  fun h => hq2ne (by rw [h])
                have hsk : skipWs (':' :: ' ' :: q3) = ':' :: ' ' :: q3 :=
                  skipWs_not_ws ':' (by decide) _
                rcases prefixSplit hq3 with hq4 | ⟨q4, rfl, hq4⟩
                · by_cases heq2 : q3 = renderStr kv.2
                  · subst heq2
                    have hJ2 : parseJStr (renderStr kv.2) = some (kv.2, []) := by
                      have := parseJStr_renderStr kv.2 []
                      rwa [List.append_nil] at this
                    have hsk2 : skipWs (' ' :: renderStr kv.2) = renderStr kv.2 := by
                      rw [skipWs_ws_cons ' ' (by decide)]
                      rw [show renderStr kv.2 = renderStr kv.2 ++ [] from
                        (List.append_nil _).symm]
                      exact skipWs_renderStr _ _
                    rw [parseMembers, hJ]
                    simp only []
                    rw [hsk]
                    simp only []
                    rw [hsk2, hJ2]
                    rfl
                  · have hJ2 := parseJStr_renderStr_strict kv.2 q3 hq4 heq2
                    have hsk2 : parseJStr (skipWs (' ' :: q3)) = none := by
                      rw [skipWs_ws_cons ' ' (by decide)]
                      have hq4c : q3 <+: '"' :: (kv.2.data.flatMap escChar ++ ['"']) := hq4
                      rcases prefix_cons_cases hq4c with rfl | ⟨q5, rfl, hq5⟩
                      · rfl
                      · rw [skipWs_not_ws '"' (by decide)]
                        exact hJ2
                    rw [parseMembers, hJ]
                    simp only []
                    rw [hsk]
                    simp only []
                    rw [hsk2]
                · have hq4ne : q4 ≠ sepClose rest :=
                    fun h => hq3ne (by rw [h])
                  have hJ2 := parseJStr_renderStr kv.2 q4
                  have hsk2 : skipWs (' ' :: (renderStr kv.2 ++ q4)) =
                      renderStr kv.2 ++ q4 := by
                    rw [skipWs_ws_cons ' ' (by decide)]
                    exact skipWs_renderStr _ _
                  cases rest with
                  | nil =>
                      rw [sepClose_nil] at hq4 hq4ne
                      rcases prefix_cons_cases hq4 with rfl | ⟨q5, rfl, hq5⟩
                      · rw [parseMembers, hJ]
                        simp only []
                        rw [hsk]
                        simp only []
                        rw [hsk2, hJ2]
                        rfl
                      · rcases prefix_cons_cases hq5 with rfl | ⟨q6, rfl, hq6⟩
                        · rw [parseMembers, hJ]
                          simp only []
                          rw [hsk]
                          simp only []
                          rw [hsk2, hJ2]
                          rfl
                        · rw [List.prefix_nil] at hq6
                          subst hq6
                          exact absurd rfl hq4ne
                  | cons kv2 rest2 =>
                      rw [sepClose_cons] at hq4 hq4ne
                      rcases prefix_cons_cases hq4 with rfl | ⟨q5, rfl, hq5⟩
                      · rw [parseMembers, hJ]
                        simp only []
                        rw [hsk]
                        simp only []
                        rw [hsk2, hJ2]
                        rfl
                      · have hq5ne : q5 ≠ '\n' :: ' ' :: ' ' :: renderTail (kv2 :: rest2) :=
                          fun h => hq4ne (by rw [h])
                        have hrec : parseMembers f (insertIdx acc kv.1 kv.2) (skipWs q5) =
                            none := by
                          have hq5' : q5 <+: ['\n', ' ', ' '] ++ renderTail (kv2 :: rest2) :=
                            hq5
                          rcases prefixSplit hq5' with h5 | ⟨q6, rfl, hq6⟩
                          · rw [skipWs_eq_nil_of_all_ws
                              (prefix_all_ws h5 (by decide))]
                            exact parseMembers_nil _ _
                          · have hq6ne : q6 ≠ renderTail (kv2 :: rest2) :=
                              fun h => hq5ne (by rw [h]; rfl)
                            simp only [List.cons_append, List.nil_append]
                            rw [skipWs_ws_cons '\n' (by decide),
                              skipWs_ws_cons ' ' (by decide),
                              skipWs_ws_cons ' ' (by decide)]
                            have hq6c := hq6
                            rw [renderTail_eq_cons] at hq6c
                            rcases prefix_cons_cases hq6c with rfl | ⟨q7, rfl, hq7⟩
                            · exact parseMembers_nil _ _
                            · rw [skipWs_not_ws '"' (by decide)]
                              exact ih f (insertIdx acc kv.1 kv.2) _ (by simp) hq6 hq6ne
                        rw [parseMembers, hJ]
                        simp only []
                        rw [hsk]
                        simp only []
                        rw [hsk2, hJ2]
                        simp only []
                        rw [skipWs_not_ws ',' (by decide)]
                        simp only []
                        exact hrec

theorem renderMembers_close (kv : String × String) (rest : Index) :
    renderMembers (kv :: rest) ++ ['\n', '}'] =
      '\n' :: ' ' :: ' ' :: renderTail (kv :: rest) := by
  simp [renderMembers, renderTail, List.append_assoc]

/-- A strict prefix of a serialized index never parses. -/
theorem parseIndex_truncated (m : Index) (q : List Char)
    (hpre : q <+: (serializeIndex m).data) (hne : q ≠ (serializeIndex m).data) :
    parseIndex (String.mk q) = none := by
  cases m with
  | nil =>
      have hdata : (serializeIndex []).data = ['{', '}'] := rfl
      rw [hdata] at hpre hne
      rcases prefix_cons_cases hpre with rfl | ⟨q1, rfl, hq1⟩
      · rfl
      · rcases prefix_cons_cases hq1 with rfl | ⟨q2, rfl, hq2⟩
        · rfl
        · rw [List.prefix_nil] at hq2
          subst hq2
          exact absurd rfl hne
  | cons kv rest =>
      have hdata : (serializeIndex (kv :: rest)).data =
          '{' :: '\n' :: ' ' :: ' ' :: renderTail (kv :: rest) := by
        rw [show (serializeIndex (kv :: rest)).data =
          '{' :: (renderMembers (kv :: rest) ++ ['\n', '}']) from by
            simp [serializeIndex]]
        rw [renderMembers_close]
      rw [hdata] at hpre hne
      rcases prefix_cons_cases hpre with rfl | ⟨q1, rfl, hq1⟩
      · rfl
      · have hq1ne : q1 ≠ '\n' :: ' ' :: ' ' :: renderTail (kv :: rest) :=
          fun h => hne (by rw [h])
        rw [parseIndex]
        simp only []
        rw [skipWs_not_ws '{' (by decide)]
        simp only []
        have hq1' : q1 <+: ['\n', ' ', ' '] ++ renderTail (kv :: rest) := hq1
        rcases prefixSplit hq1' with h1 | ⟨q2, rfl, hq2⟩
        · rw [skipWs_eq_nil_of_all_ws (prefix_all_ws h1 (by decide))]
          rfl
        · have hq2ne : q2 ≠ renderTail (kv :: rest) :=
            fun h => hq1ne (by rw [h]; rfl)
          simp only [List.cons_append, List.nil_append]
          rw [skipWs_ws_cons '\n' (by decide), skipWs_ws_cons ' ' (by decide),
            skipWs_ws_cons ' ' (by decide)]
          have hq2c := hq2
          rw [renderTail_eq_cons] at hq2c
          rcases prefix_cons_cases hq2c with rfl | ⟨q3, rfl, hq3⟩
          · rfl
          · rw [skipWs_not_ws '"' (by decide)]
            exact parseMembers_strict (kv :: rest) _ [] _ (by simp) hq2 hq2ne

/-- A successful `cmd_add` ends in exactly one `save_index`: the
index file holds the full serialization of the final map, the write
counter advanced by one, and the status line reports that map's
size. -/
theorem cmd_add_ok_inv {r : Repo} {args : List Path} {r' : Repo}
    {warns : List String} {msg : String}
    (h : cmd_add r args = Except.ok (r', warns, msg)) :
    r'.indexWrites = r.indexWrites + 1 ∧
    ∃ idx, r'.indexFile = some (serializeIndex idx) ∧
      msg = "Staged " ++ toString idx.length ++ " path(s)." := by
  by_cases hre : r.repoExists
  · cases hload : load_index r.indexFile with
    | error e => simp [cmd_add, hre, hload] at h
    | ok idx0 =>
        cases haddl : addLoop r.st idx0 [] args with
        | mk ex rest =>
            cases rest with
            | mk idx1 w1 =>
                cases ex with
                | error e => simp [cmd_add, hre, hload, haddl] at h
                | ok st' =>
                    simp only [cmd_add, hre, Bool.not_true, Bool.false_eq_true,
                      if_false, hload, haddl, Except.ok.injEq, Prod.mk.injEq] at h
                    obtain ⟨rfl, rfl, rfl⟩ := h
                    exact ⟨rfl, idx1, rfl, rfl⟩
  · simp [cmd_add, hre] at h

/-! ## C5: the index persists atomically, truncation is never silent -/

/-- Claim C5: a staging operation that returns success has persisted
the entire final mapping in one write (the write counter advances by
exactly one and the persisted file is the full serialization), and a
failure mid-write can never silently lose data: every strict prefix
of a serialized index fails to parse, so a torn write surfaces as a
loud parse error on the next load rather than as a silently wrong
mapping. -/
theorem C5_atomic_index_persistence :
    (∀ (r : Repo) (args : List Path) (r' : Repo) (warns : List String) (msg : String),
        cmd_add r args = Except.ok (r', warns, msg) →
        r'.indexWrites = r.indexWrites + 1 ∧
        ∃ idx, r'.indexFile = some (serializeIndex idx) ∧
          msg = "Staged " ++ toString idx.length ++ " path(s).") ∧
    (∀ (m : Index) (q : List Char),
        q <+: (serializeIndex m).data → q ≠ (serializeIndex m).data →
        parseIndex (String.mk q) = none) :=
  ⟨fun _ _ _ _ _ h => cmd_add_ok_inv h,
   fun m q hpre hne => parseIndex_truncated m q hpre hne⟩

/-- Witness for C5: one concrete `add` run with its single persisted
write, and a concrete truncation (`{` plus half a member) that fails
to parse. -/
theorem C5_atomic_index_persistence_witness :
    cmd_add ⟨⟨FsTree.dir true [("f", FsTree.file [97])], [], true, ["w"], true⟩,
        true, none, 0⟩ [⟨false, ["f"]⟩] =
      Except.ok
        (⟨⟨FsTree.dir true [("f", FsTree.file [97])],
            [(sha1_hex [97], [97])], true, ["w"], true⟩,
          true, some (serializeIndex [("f", sha1_hex [97])]), 1⟩,
         [], "Staged 1 path(s).") ∧
    ((⟨⟨FsTree.dir true [("f", FsTree.file [97])],
        [(sha1_hex [97], [97])], true, ["w"], true⟩,
       true, some (serializeIndex [("f", sha1_hex [97])]), 1⟩ : Repo).indexWrites = 0 + 1 ∧
     ∃ idx, (some (serializeIndex [("f", sha1_hex [97])]) : Option String) =
         some (serializeIndex idx) ∧
       "Staged 1 path(s)." = "Staged " ++ toString idx.length ++ " path(s).") ∧
    parseIndex (String.mk ['{', '\n', ' ', ' ', '"', 'a']) = none :=
  ⟨rfl,
   C5_atomic_index_persistence.1
     ⟨⟨FsTree.dir true [("f", FsTree.file [97])], [], true, ["w"], true⟩,
      true, none, 0⟩
     [⟨false, ["f"]⟩]
     ⟨⟨FsTree.dir true [("f", FsTree.file [97])],
        [(sha1_hex [97], [97])], true, ["w"], true⟩,
      true, some (serializeIndex [("f", sha1_hex [97])]), 1⟩
     [] "Staged 1 path(s)." rfl,
   C5_atomic_index_persistence.2 [("a", "b")] ['{', '\n', ' ', ' ', '"', 'a']
     (by decide) (by decide)⟩

/-! ## Directory traversal: `walkdir` against `filesOf` (C8, C9) -/

theorem alookup_mem_keys {α : Type} {l : List (String × α)} {k : String} {v : α}
    (h : alookup l k = some v) : k ∈ l.map Prod.fst := by
  induction l with
  | nil => simp [alookup] at h
  | cons e rest ih =>
      obtain ⟨a, b⟩ := e
      by_cases he : a = k
      · simp [he]
      · simp only [alookup, he, if_false] at h
        simp [ih h]

theorem alookup_of_mem_nodup {es : List (String × FsTree)} {n : String} {t : FsTree}
    (hmem : (n, t) ∈ es) (hnd : nodupNames (es.map Prod.fst) = true) :
    alookup es n = some t := by
  induction es with
  | nil => simp at hmem
  | cons e rest ih =>
      obtain ⟨a, b⟩ := e
      simp only [List.map_cons, nodupNames, Bool.and_eq_true,
        Bool.not_eq_true'] at hnd
      rcases List.mem_cons.mp hmem with heq | hmem'
      · obtain ⟨rfl, rfl⟩ := Prod.mk.injEq .. ▸ heq
        simp [alookup]
      · have hne : ¬(a = n) := by
          intro h
          subst h
          have hm : a ∈ rest.map Prod.fst := List.mem_map_of_mem Prod.fst hmem'
          have hc : (rest.map Prod.fst).contains a = true := by
            rw [List.contains_iff_exists_mem_beq]
            exact ⟨a, hm, by simp⟩
          rw [hnd.1] at hc
          cases hc
        simp only [alookup, hne, if_false]
        exact ih hmem' hnd.2

theorem resolveT_append (a : List String) :
    ∀ (t : FsTree) (b : List String),
      resolveT t (a ++ b) = (resolveT t a).bind (fun u => resolveT u b) := by
  induction a with
  | nil => intro t b; simp [resolveT]
  | cons n a' ih =>
      intro t b
      cases t with
      | file c => simp [resolveT]
      | dir r es =>
          simp only [List.cons_append, resolveT]
          cases alookup es n with
          | none => simp
          | some u => simp [ih u b]

theorem resolveSt_append {st : St} {p : Path} {t : FsTree}
    (h : resolveSt st p = some t) (q : List String) :
    resolveSt st ⟨p.absolute, p.comps ++ q⟩ = resolveT t q := by
  cases hab : p.absolute with
  | false =>
      simp only [resolveSt, underCwd, hab, Bool.false_eq_true, if_false] at h ⊢
      rw [resolveT_append, h]
      rfl
  | true =>
      simp only [resolveSt, underCwd, hab, if_true] at h ⊢
      by_cases hpre : st.cwdPath <+: p.comps
      · rw [if_pos hpre] at h
        rw [if_pos (hpre.trans (List.prefix_append p.comps q))]
        rw [List.drop_append_of_le_length hpre.length_le]
        simp only [] at h ⊢
        rw [resolveT_append, h]
        rfl
      · rw [if_neg hpre] at h
        cases h
mutual
/-- On a fully readable directory, `walkdir` succeeds and yields
exactly the transitively contained regular files, in order. -/
theorem walkdir_ok (base : List String) (r : Bool) (es : List (String × FsTree))
    (h : allReadable (FsTree.dir r es) = true) :
    walkdir base (FsTree.dir r es) =
      Except.ok ((filesOf (FsTree.dir r es)).map (base ++ ·)) := by
  simp only [allReadable, Bool.and_eq_true] at h
  obtain ⟨hr, hes⟩ := h
  subst hr
  rw [walkdir, filesOf]
  exact walkEntries_ok base es hes
termination_by sizeOf es + 1

theorem walkEntries_ok (base : List String) (es : List (String × FsTree))
    (h : allReadableEntries es = true) :
    walkEntries base es = Except.ok ((filesOfEntries es).map (base ++ ·)) := by
  match es with
  | [] => simp [walkEntries, filesOfEntries]
  | (n, t) :: rest =>
      simp only [allReadableEntries, Bool.and_eq_true] at h
      obtain ⟨ht, hrest⟩ := h
      cases t with
      | file c =>
          rw [walkEntries, walkEntries_ok base rest hrest]
          simp [filesOfEntries]
      | dir r2 es2 =>
          rw [walkEntries, walkdir_ok (base ++ [n]) r2 es2 ht,
            walkEntries_ok base rest hrest]
          simp only [filesOfEntries, filesOf, List.map_append, List.map_map]
          have hmap : List.map (fun x => base ++ [n] ++ x) (filesOfEntries es2) =
              List.map ((fun x => base ++ x) ∘ fun x => n :: x) (filesOfEntries es2) :=
            List.map_congr_left fun x _ => by simp
          rw [hmap]
termination_by sizeOf es
end

mutual
/-- An unreadable directory anywhere under the root aborts the whole
walk with the raw OS error (no partial result). -/
theorem walkdir_err (base : List String) (r : Bool) (es : List (String × FsTree))
    (h : allReadable (FsTree.dir r es) = false) :
    walkdir base (FsTree.dir r es) = Except.error osIoError := by
  cases r with
  | false => rw [walkdir]
  | true =>
      simp only [allReadable, Bool.true_and] at h
      rw [walkdir]
      exact walkEntries_err base es h
termination_by sizeOf es + 1

theorem walkEntries_err (base : List String) (es : List (String × FsTree))
    (h : allReadableEntries es = false) :
    walkEntries base es = Except.error osIoError := by
  match es with
  | [] => simp [allReadableEntries] at h
  | (n, t) :: rest =>
      rw [allReadableEntries] at h
      cases t with
      | file c =>
          have hrest : allReadableEntries rest = false := by
            simpa [allReadable] using h
          rw [walkEntries, walkEntries_err base rest hrest]
      | dir r2 es2 =>
          cases hb : allReadable (FsTree.dir r2 es2) with
          | false => rw [walkEntries, walkdir_err (base ++ [n]) r2 es2 hb]
          | true =>
              have hrest : allReadableEntries rest = false := by
                rw [hb] at h
                simpa using h
              rw [walkEntries, walkdir_ok (base ++ [n]) r2 es2 hb,
                walkEntries_err base rest hrest]
termination_by sizeOf es
end

mutual
/-- Every path listed by `filesOf` is a regular file of the tree —
never a directory entry. -/
theorem filesOf_resolve (t : FsTree) (h : namesOk t = true) :
    ∀ q ∈ filesOf t, ∃ c, resolveT t q = some (FsTree.file c) := by
  cases t with
  | file c => intro q hq; simp [filesOf] at hq
  | dir r es =>
      intro q hq
      simp only [namesOk, Bool.and_eq_true] at h
      rw [filesOf] at hq
      obtain ⟨n, q', t', c, rfl, hlk, hres⟩ :=
        filesOfEntries_resolve es h.1 h.2 q hq
      refine ⟨c, ?_⟩
      rw [resolveT, hlk]
      exact hres

theorem filesOfEntries_resolve (es : List (String × FsTree))
    (hnd : nodupNames (es.map Prod.fst) = true) (h : namesOkEntries es = true) :
    ∀ q ∈ filesOfEntries es, ∃ n q' t c, q = n :: q' ∧ alookup es n = some t ∧
      resolveT t q' = some (FsTree.file c) := by
  match es with
  | [] => intro q hq; simp [filesOfEntries] at hq
  | (n, t) :: rest =>
      intro q hq
      simp only [namesOkEntries, Bool.and_eq_true] at h
      simp only [List.map_cons, nodupNames, Bool.and_eq_true,
        Bool.not_eq_true'] at hnd
      cases t with
      | file c =>
          rw [filesOfEntries] at hq
          rcases List.mem_cons.mp hq with rfl | hq'
          · exact ⟨n, [], FsTree.file c, c, rfl, by simp [alookup], rfl⟩
          · obtain ⟨n', q', t', c', rfl, hlk, hres⟩ :=
              filesOfEntries_resolve rest hnd.2 h.2 q hq'
            refine ⟨n', q', t', c', rfl, ?_, hres⟩
            have hne : ¬(n = n') := by
              intro hnn
              subst hnn
              have hm : n ∈ rest.map Prod.fst := alookup_mem_keys hlk
              have hc : (rest.map Prod.fst).contains n = true := by
                rw [List.contains_iff_exists_mem_beq]
                exact ⟨n, hm, by simp⟩
              rw [hnd.1] at hc
              cases hc
            simp [alookup, hne, hlk]
      | dir r2 es2 =>
          rw [filesOfEntries] at hq
          rcases List.mem_append.mp hq with hq' | hq'
          · obtain ⟨q0, hq0, rfl⟩ := List.mem_map.mp hq'
            obtain ⟨c, hres⟩ := filesOf_resolve (FsTree.dir r2 es2) h.1 q0
              (by rw [filesOf]; exact hq0)
            exact ⟨n, q0, FsTree.dir r2 es2, c, rfl, by simp [alookup], hres⟩
          · obtain ⟨n', q', t', c', rfl, hlk, hres⟩ :=
              filesOfEntries_resolve rest hnd.2 h.2 q hq'
            refine ⟨n', q', t', c', rfl, ?_, hres⟩
            have hne : ¬(n = n') := by
              intro hnn
              subst hnn
              have hm : n ∈ rest.map Prod.fst := alookup_mem_keys hlk
              have hc : (rest.map Prod.fst).contains n = true := by
                rw [List.contains_iff_exists_mem_beq]
                exact ⟨n, hm, by simp⟩
              rw [hnd.1] at hc
              cases hc
            simp [alookup, hne, hlk]
end

theorem to_repo_relative_norm {st : St} (p : Path) (hc : st.cwdOk = true) :
    to_repo_relative st p = Except.ok (normPath st p) := by
  simp [to_repo_relative, normPath, hc]

/-- Everything `stage_file` consults besides the object store is
determined by `root`, `cwdPath`, `cwdOk`: resolution agrees on states
that agree there. -/
theorem resolveSt_congr {st st' : St} (p : Path)
    (h1 : st'.root = st.root) (h2 : st'.cwdPath = st.cwdPath) :
    resolveSt st' p = resolveSt st p := by
  simp [resolveSt, underCwd, h1, h2]

theorem readFile_congr {st st' : St} (p : Path)
    (h1 : st'.root = st.root) (h2 : st'.cwdPath = st.cwdPath) :
    readFile st' p = readFile st p := by
  simp [readFile, resolveSt_congr p h1 h2]

theorem isDirAt_congr {st st' : St} (p : Path)
    (h1 : st'.root = st.root) (h2 : st'.cwdPath = st.cwdPath) :
    isDirAt st' p = isDirAt st p := by
  simp [isDirAt, resolveSt_congr p h1 h2]

theorem isFileAt_congr {st st' : St} (p : Path)
    (h1 : st'.root = st.root) (h2 : st'.cwdPath = st.cwdPath) :
    isFileAt st' p = isFileAt st p := by
  simp [isFileAt, resolveSt_congr p h1 h2]

theorem normPath_congr {st st' : St} (p : Path) (h2 : st'.cwdPath = st.cwdPath) :
    normPath st' p = normPath st p := by
  simp [normPath, h2]

theorem argReadable_congr {st st' : St} (p : Path)
    (h1 : st'.root = st.root) (h2 : st'.cwdPath = st.cwdPath) :
    argReadable st' p = argReadable st p := by
  simp [argReadable, resolveSt_congr p h1 h2]

/-- Staging a list of readable files succeeds, preserves the world
shape, touches only the normalized keys of the staged paths, and —
when those keys are mutually distinct — leaves each of them bound to
the digest of its file's content. -/
theorem stageList_spec (ps : List Path) :
    ∀ (st : St) (idx : Index),
      st.objectsWritable = true → st.cwdOk = true →
      (∀ p ∈ ps, (readFile st p).isSome) →
      ∃ st' idx', stageList st idx ps = (Except.ok st', idx') ∧
        st'.root = st.root ∧ st'.objectsWritable = true ∧
        st'.cwdPath = st.cwdPath ∧ st'.cwdOk = true ∧
        (∀ k, alookup idx' k = alookup idx k ∨ ∃ p ∈ ps, k = normPath st p) ∧
        ((ps.map (normPath st)).Nodup →
          ∀ p ∈ ps, ∀ c, readFile st p = some c →
            alookup idx' (normPath st p) = some (sha1_hex c)) := by
  induction ps with
  | nil =>
      intro st idx hw hc _
      exact ⟨st, idx, rfl, rfl, hw, rfl, hc, fun k => Or.inl rfl, by simp⟩
  | cons p rest ih =>
      intro st idx hw hc hread
      obtain ⟨c, hcread⟩ := Option.isSome_iff_exists.mp (hread p (by simp))
      obtain ⟨st1, rel, hstage, hrel⟩ := stage_file_ok_of hcread hw hc
      rw [to_repo_relative_norm p hc] at hrel
      obtain rfl : rel = normPath st p := by injection hrel.symm
      obtain ⟨_, _, _, _, _, h1root, h1w, h1cwd, h1ok, _⟩ := stage_file_ok_inv hstage
      have hread1 : ∀ p' ∈ rest, (readFile st1 p').isSome := by
        intro p' hp'
        rw [readFile_congr p' h1root h1cwd]
        exact hread p' (by simp [hp'])
      obtain ⟨st', idx', hrun, hroot, hw', hcwd, hok, hframe, hvals⟩ :=
        ih st1 (insertIdx idx (normPath st p) (sha1_hex c))
          (h1w.trans hw) (h1ok.trans hc) hread1
      refine ⟨st', idx', ?_, hroot.trans h1root, hw', hcwd.trans h1cwd,
        hok, ?_, ?_⟩
      · rw [stageList, hstage]
        simp only []
        rw [hrun]
      · intro k
        rcases hframe k with hk | ⟨p', hp', hk⟩
        · by_cases hkp : k = normPath st p
          · exact Or.inr ⟨p, by simp, hkp⟩
          · rw [hk, alookup_insert_ne _ _ _ _ hkp]
            exact Or.inl rfl
        · exact Or.inr ⟨p', by simp [hp'],
            by rw [hk, normPath_congr p' h1cwd]⟩
      · intro hnodup p' hp' c' hread'
        simp only [List.map_cons, List.nodup_cons] at hnodup
        rcases List.mem_cons.mp hp' with rfl | hp''
        · rw [hcread] at hread'
          obtain rfl : c = c' := by injection hread'
          rcases hframe (normPath st p') with hk | ⟨p'', hp'', hk⟩
          · rw [hk, alookup_insert_self]
          · exfalso
            rw [normPath_congr p'' h1cwd] at hk
            exact hnodup.1 (hk ▸ List.mem_map_of_mem (normPath st) hp'')
        · have hmap1 : rest.map (normPath st1) = rest.map (normPath st) := by
            exact List.map_congr_left fun x _ => normPath_congr x h1cwd
          have := hvals (by rw [hmap1]; exact hnodup.2) p' hp'' c'
            (by rw [readFile_congr p' h1root h1cwd]; exact hread')
          rw [normPath_congr p' h1cwd] at this
          exact this

theorem skippedArg_congr {st st' : St} (p : Path)
    (h1 : st'.root = st.root) (h2 : st'.cwdPath = st.cwdPath) :
    skippedArg st' p = skippedArg st p := by
  simp [skippedArg, isDirAt_congr p h1 h2, isFileAt_congr p h1 h2]

/-- The argument loop of `cmd_add`: with a writable object store, a
known cwd and readable arguments, it succeeds, warns exactly about
the skipped arguments, and preserves the world shape. -/
theorem addLoop_ok (args : List Path) :
    ∀ (st : St) (idx : Index) (warns : List String),
      st.objectsWritable = true → st.cwdOk = true →
      (∀ p ∈ args, argReadable st p = true) →
      ∃ st' idx', addLoop st idx warns args =
        (Except.ok st', idx',
          warns ++ (args.filter (skippedArg st)).map skipWarning) ∧
        st'.root = st.root ∧ st'.objectsWritable = true ∧
        st'.cwdPath = st.cwdPath ∧ st'.cwdOk = true := by
  induction args with
  | nil =>
      intro st idx warns hw hc _
      exact ⟨st, idx, by simp [addLoop], rfl, hw, rfl, hc⟩
  | cons p rest ih =>
      intro st idx warns hw hc hargs
      have hargrest : ∀ p' ∈ rest, argReadable st p' = true :=
        fun p' hp' => hargs p' (by simp [hp'])
      by_cases hd : isDirAt st p = true
      · have hres : ∃ r es, resolveSt st p = some (FsTree.dir r es) := by
          rw [isDirAt] at hd
          cases hres : resolveSt st p with
          | none => rw [hres] at hd; cases hd
          | some t =>
              cases t with
              | file c => rw [hres] at hd; cases hd
              | dir r es => exact ⟨r, es, rfl⟩
        obtain ⟨r, es, hres⟩ := hres
        have hread := hargs p (by simp)
        rw [argReadable, hres] at hread
        simp only [Bool.and_eq_true] at hread
        have hwalk := walkdir_ok p.comps r es hread.1
        have hfread : ∀ p' ∈ ((filesOf (FsTree.dir r es)).map
            (fun x => p.comps ++ x)).map (fun q => Path.mk p.absolute q),
            (readFile st p').isSome := by
          intro p' hp'
          obtain ⟨q1, hq1, rfl⟩ := List.mem_map.mp hp'
          obtain ⟨q0, hq0, rfl⟩ := List.mem_map.mp hq1
          obtain ⟨c, hcres⟩ := filesOf_resolve (FsTree.dir r es) hread.2 q0 hq0
          rw [readFile, show (⟨p.absolute, p.comps ++ q0⟩ : Path) =
            ⟨p.absolute, p.comps ++ q0⟩ from rfl]
          rw [resolveSt_append hres q0, hcres]
          rfl
        obtain ⟨st1, idx1, hrun, h1root, h1w, h1cwd, h1ok, _, _⟩ :=
          stageList_spec (((filesOf (FsTree.dir r es)).map
            (fun x => p.comps ++ x)).map (fun q => Path.mk p.absolute q))
            st idx hw hc hfread
        obtain ⟨st', idx', hrest, hroot, hw', hcwd, hok⟩ :=
          ih st1 idx1 warns h1w h1ok
            (fun p' hp' => by
              rw [argReadable_congr p' h1root h1cwd]
              exact hargrest p' hp')
        refine ⟨st', idx', ?_, hroot.trans h1root, hw', hcwd.trans h1cwd, hok⟩
        rw [addLoop]
        simp only [hd, if_true, hres]
        rw [hwalk]
        simp only []
        rw [hrun]
        simp only []
        rw [hrest]
        have hfilter : rest.filter (skippedArg st1) = rest.filter (skippedArg st) :=
          List.filter_congr fun x _ => skippedArg_congr x h1root h1cwd
        have hskip : skippedArg st p = false := by
          simp [skippedArg, hd]
        simp [hfilter, hskip]
      · by_cases hf : isFileAt st p = true
        · have hres : ∃ c, resolveSt st p = some (FsTree.file c) := by
            rw [isFileAt] at hf
            cases hres : resolveSt st p with
            | none => rw [hres] at hf; cases hf
            | some t =>
                cases t with
                | file c => exact ⟨c, rfl⟩
                | dir r es => rw [hres] at hf; cases hf
          obtain ⟨c, hres⟩ := hres
          have hcread : readFile st p = some c := by
            rw [readFile, hres]
          obtain ⟨st1, rel, hstage, _⟩ := stage_file_ok_of hcread hw hc
          obtain ⟨_, _, _, _, _, h1root, h1w, h1cwd, h1ok, _⟩ :=
            stage_file_ok_inv hstage
          obtain ⟨st', idx', hrest, hroot, hw', hcwd, hok⟩ :=
            ih st1 (insertIdx idx rel (sha1_hex c)) warns (h1w.trans hw)
              (h1ok.trans hc)
              (fun p' hp' => by
                rw [argReadable_congr p' h1root h1cwd]
                exact hargrest p' hp')
          refine ⟨st', idx', ?_, hroot.trans h1root, hw', hcwd.trans h1cwd, hok⟩
          rw [addLoop]
          simp only [hd, if_false, hf, if_true]
          rw [hstage]
          simp only []
          rw [hrest]
          have hfilter : rest.filter (skippedArg st1) = rest.filter (skippedArg st) :=
            List.filter_congr fun x _ => skippedArg_congr x h1root h1cwd
          have hskip : skippedArg st p = false := by
            simp [skippedArg, hf]
          simp [hfilter, hskip]
        · obtain ⟨st', idx', hrest, hroot, hw', hcwd, hok⟩ :=
            ih st idx (warns ++ [skipWarning p]) hw hc hargrest
          refine ⟨st', idx', ?_, hroot, hw', hcwd, hok⟩
          rw [addLoop]
          simp only [hd, hf, if_false]
          rw [hrest]
          have hskip : skippedArg st p = true := by
            simp [skippedArg, hd, hf]
          simp [hskip]

/-! ## C9: skipped arguments warn, the operation succeeds, one persist -/

/-- Claim C9: during `add`, an argument that is neither an existing
file nor an existing directory is skipped with a warning and does not
abort the operation; after all arguments are processed the index is
persisted exactly once and the total number of staged paths is
reported. -/
theorem C9_add_skips_warns_persists_once :
    ∀ (r : Repo) (args : List Path) (idx0 : Index),
      r.repoExists = true →
      load_index r.indexFile = Except.ok idx0 →
      r.st.objectsWritable = true → r.st.cwdOk = true →
      (∀ p ∈ args, argReadable r.st p = true) →
      ∃ r' idxF,
        cmd_add r args = Except.ok (r',
          (args.filter (skippedArg r.st)).map skipWarning,
          "Staged " ++ toString idxF.length ++ " path(s).") ∧
        r'.indexWrites = r.indexWrites + 1 ∧
        r'.indexFile = some (serializeIndex idxF) := by
  intro r args idx0 hre hload hw hc hargs
  obtain ⟨st', idx', hrun, _, _, _, _⟩ := addLoop_ok args r.st idx0 [] hw hc hargs
  refine ⟨save_index { r with st := st' } idx', idx', ?_, rfl, rfl⟩
  rw [cmd_add]
  simp only [hre, Bool.not_true, Bool.false_eq_true, if_false]
  rw [hload]
  simp only []
  rw [hrun]
  simp only [List.nil_append]

/-- Witness for C9: one file, one directory, one missing argument:
the missing one is skipped with its warning, the run succeeds, the
index is written once and reports two staged paths. -/
theorem C9_add_skips_warns_persists_once_witness :
    (∀ p ∈ [(⟨false, ["f"]⟩ : Path), ⟨false, ["d"]⟩, ⟨false, ["nope"]⟩],
      argReadable ⟨FsTree.dir true [("f", FsTree.file [97]),
        ("d", FsTree.dir true [("g", FsTree.file [98])])], [], true, ["w"], true⟩
        p = true) ∧
    (∃ r' idxF,
      cmd_add ⟨⟨FsTree.dir true [("f", FsTree.file [97]),
          ("d", FsTree.dir true [("g", FsTree.file [98])])], [], true, ["w"], true⟩,
        true, none, 0⟩
        [⟨false, ["f"]⟩, ⟨false, ["d"]⟩, ⟨false, ["nope"]⟩] =
        Except.ok (r',
          ([(⟨false, ["f"]⟩ : Path), ⟨false, ["d"]⟩, ⟨false, ["nope"]⟩].filter
            (skippedArg ⟨FsTree.dir true [("f", FsTree.file [97]),
              ("d", FsTree.dir true [("g", FsTree.file [98])])], [], true, ["w"], true⟩)).map
                skipWarning,
          "Staged " ++ toString idxF.length ++ " path(s).") ∧
        r'.indexWrites = 0 + 1 ∧
        r'.indexFile = some (serializeIndex idxF)) :=
  ⟨by decide,
   C9_add_skips_warns_persists_once
     ⟨⟨FsTree.dir true [("f", FsTree.file [97]),
        ("d", FsTree.dir true [("g", FsTree.file [98])])], [], true, ["w"], true⟩,
       true, none, 0⟩
     [⟨false, ["f"]⟩, ⟨false, ["d"]⟩, ⟨false, ["nope"]⟩]
     [] rfl rfl rfl rfl (by decide)⟩

/-- Staging one directory argument stages exactly its transitively
contained regular files: the index gains only their normalized keys,
and (when those keys are distinct) each is bound to its content's
digest. -/
theorem addLoop_dir_spec (st : St) (idx : Index) (p : Path) (r : Bool)
    (es : List (String × FsTree))
    (hres : resolveSt st p = some (FsTree.dir r es))
    (hall : allReadable (FsTree.dir r es) = true)
    (hnames : namesOk (FsTree.dir r es) = true)
    (hw : st.objectsWritable = true) (hc : st.cwdOk = true) :
    ∃ st' idx', addLoop st idx [] [p] = (Except.ok st', idx', []) ∧
      (∀ k, alookup idx' k = alookup idx k ∨
        ∃ q ∈ filesOf (FsTree.dir r es),
          k = normPath st ⟨p.absolute, p.comps ++ q⟩) ∧
      (((filesOf (FsTree.dir r es)).map
          (fun q => normPath st ⟨p.absolute, p.comps ++ q⟩)).Nodup →
        ∀ q ∈ filesOf (FsTree.dir r es), ∀ c,
          resolveT (FsTree.dir r es) q = some (FsTree.file c) →
          alookup idx' (normPath st ⟨p.absolute, p.comps ++ q⟩) =
            some (sha1_hex c)) := by
  have hd : isDirAt st p = true := by rw [isDirAt, hres]
  have hfread : ∀ p' ∈ ((filesOf (FsTree.dir r es)).map
      (fun x => p.comps ++ x)).map (fun q => Path.mk p.absolute q),
      (readFile st p').isSome := by
    intro p' hp'
    obtain ⟨q1, hq1, rfl⟩ := List.mem_map.mp hp'
    obtain ⟨q0, hq0, rfl⟩ := List.mem_map.mp hq1
    obtain ⟨c, hcres⟩ := filesOf_resolve (FsTree.dir r es) hnames q0 hq0
    rw [readFile, resolveSt_append hres q0, hcres]
    rfl
  obtain ⟨st1, idx1, hrun, h1root, h1w, h1cwd, h1ok, hframe, hvals⟩ :=
    stageList_spec (((filesOf (FsTree.dir r es)).map
      (fun x => p.comps ++ x)).map (fun q => Path.mk p.absolute q))
      st idx hw hc hfread
  refine ⟨st1, idx1, ?_, ?_, ?_⟩
  · rw [addLoop]
    simp only [hd, if_true, hres]
    rw [walkdir_ok p.comps r es hall]
    simp only []
    rw [hrun]
    simp only []
    rw [addLoop]
  · intro k
    rcases hframe k with hk | ⟨p', hp', hk⟩
    · exact Or.inl hk
    · right
      obtain ⟨q1, hq1, hk1⟩ := List.mem_map.mp hp'
      obtain ⟨q0, hq0, rfl⟩ := List.mem_map.mp hq1
      exact ⟨q0, hq0, by rw [hk, ← hk1]⟩
  · intro hnodup q0 hq0 c hcres
    have hnd' : ((((filesOf (FsTree.dir r es)).map
        (fun x => p.comps ++ x)).map (fun q => Path.mk p.absolute q)).map
          (normPath st)).Nodup := by
      simpa [List.map_map, Function.comp_def] using hnodup
    have hmem : (⟨p.absolute, p.comps ++ q0⟩ : Path) ∈
        ((filesOf (FsTree.dir r es)).map
          (fun x => p.comps ++ x)).map (fun q => Path.mk p.absolute q) :=
      List.mem_map.mpr ⟨p.comps ++ q0,
        List.mem_map.mpr ⟨q0, hq0, rfl⟩, rfl⟩
    have hrd : readFile st ⟨p.absolute, p.comps ++ q0⟩ = some c := by
      rw [readFile, resolveSt_append hres q0, hcres]
    exact hvals hnd' ⟨p.absolute, p.comps ++ q0⟩ hmem c hrd

/-- Counterexample for C8 as stated: an unreadable directory aborts
the walk, but the I/O error is the raw OS message and does not name
the directory — two walks over trees whose unreadable directories
have different names fail with the identical error, which does not
contain either name. -/
theorem C8_walkdir_error_counterexample :
    walkdir [] (FsTree.dir true [("alpha", FsTree.dir false [])]) =
      Except.error osIoError ∧
    walkdir [] (FsTree.dir true [("beta", FsTree.dir false [])]) =
      Except.error osIoError ∧
    ¬("alpha".data <:+: osIoError.data) ∧
    ¬("beta".data <:+: osIoError.data) :=
  ⟨rfl, rfl, by decide, by decide⟩

/-- Claim C8 (amended): staging a directory argument stages every
regular file transitively contained in it and no directory entry ever
appears as an index key; any directory unreadable during the
traversal aborts the whole walk with an I/O error holding the raw OS
message — which does not name the offending directory — and no
partial result. -/
theorem C8_directory_expansion :
    (∀ (base : List String) (r : Bool) (es : List (String × FsTree)),
        allReadable (FsTree.dir r es) = true →
        walkdir base (FsTree.dir r es) =
          Except.ok ((filesOf (FsTree.dir r es)).map (base ++ ·))) ∧
    (∀ t : FsTree, namesOk t = true →
        ∀ q ∈ filesOf t, ∃ c, resolveT t q = some (FsTree.file c)) ∧
    (∀ (base : List String) (r : Bool) (es : List (String × FsTree)),
        allReadable (FsTree.dir r es) = false →
        walkdir base (FsTree.dir r es) = Except.error osIoError) ∧
    (∀ (st : St) (idx : Index) (p : Path) (r : Bool)
        (es : List (String × FsTree)),
        resolveSt st p = some (FsTree.dir r es) →
        allReadable (FsTree.dir r es) = true →
        namesOk (FsTree.dir r es) = true →
        st.objectsWritable = true → st.cwdOk = true →
        ∃ st' idx', addLoop st idx [] [p] = (Except.ok st', idx', []) ∧
          (∀ k, alookup idx' k = alookup idx k ∨
            ∃ q ∈ filesOf (FsTree.dir r es),
              k = normPath st ⟨p.absolute, p.comps ++ q⟩) ∧
          (((filesOf (FsTree.dir r es)).map
              (fun q => normPath st ⟨p.absolute, p.comps ++ q⟩)).Nodup →
            ∀ q ∈ filesOf (FsTree.dir r es), ∀ c,
              resolveT (FsTree.dir r es) q = some (FsTree.file c) →
              alookup idx' (normPath st ⟨p.absolute, p.comps ++ q⟩) =
                some (sha1_hex c))) :=
  ⟨walkdir_ok, filesOf_resolve, walkdir_err, addLoop_dir_spec⟩

/-- Witness for C8: a concrete readable tree is walked in full, its
listed paths are regular files, a concrete unreadable subdirectory
aborts the walk, and staging a concrete directory argument stages its
file. -/
theorem C8_directory_expansion_witness :
    walkdir ["d"] (FsTree.dir true [("a", FsTree.file [97]),
        ("sub", FsTree.dir true [("b", FsTree.file [98])])]) =
      Except.ok ((filesOf (FsTree.dir true [("a", FsTree.file [97]),
        ("sub", FsTree.dir true [("b", FsTree.file [98])])])).map
          ((["d"] : List String) ++ ·)) ∧
    (∃ c, resolveT (FsTree.dir true [("a", FsTree.file [97]),
        ("sub", FsTree.dir true [("b", FsTree.file [98])])]) ["a"] =
      some (FsTree.file c)) ∧
    walkdir [] (FsTree.dir true [("x", FsTree.dir false [])]) =
      Except.error osIoError ∧
    (∃ st' idx',
      addLoop ⟨FsTree.dir true [("d", FsTree.dir true [("a", FsTree.file [97])])],
          [], true, ["w"], true⟩ [] [] [⟨false, ["d"]⟩] =
        (Except.ok st', idx', []) ∧
      (∀ k, alookup idx' k = alookup ([] : Index) k ∨
        ∃ q ∈ filesOf (FsTree.dir true [("a", FsTree.file [97])]),
          k = normPath ⟨FsTree.dir true [("d", FsTree.dir true [("a", FsTree.file [97])])],
            [], true, ["w"], true⟩ ⟨false, ["d"] ++ q⟩) ∧
      (((filesOf (FsTree.dir true [("a", FsTree.file [97])])).map
          (fun q => normPath ⟨FsTree.dir true [("d", FsTree.dir true [("a", FsTree.file [97])])],
            [], true, ["w"], true⟩ ⟨false, ["d"] ++ q⟩)).Nodup →
        ∀ q ∈ filesOf (FsTree.dir true [("a", FsTree.file [97])]), ∀ c,
          resolveT (FsTree.dir true [("a", FsTree.file [97])]) q =
            some (FsTree.file c) →
          alookup idx' (normPath ⟨FsTree.dir true [("d", FsTree.dir true [("a", FsTree.file [97])])],
            [], true, ["w"], true⟩ ⟨false, ["d"] ++ q⟩) = some (sha1_hex c))) :=
  ⟨C8_directory_expansion.1 ["d"] true
     [("a", FsTree.file [97]), ("sub", FsTree.dir true [("b", FsTree.file [98])])]
     (by decide),
   C8_directory_expansion.2.1
     (FsTree.dir true [("a", FsTree.file [97]),
       ("sub", FsTree.dir true [("b", FsTree.file [98])])])
     (by decide) ["a"] (by decide),
   C8_directory_expansion.2.2.1 [] true [("x", FsTree.dir false [])] (by decide),
   C8_directory_expansion.2.2.2
     ⟨FsTree.dir true [("d", FsTree.dir true [("a", FsTree.file [97])])],
       [], true, ["w"], true⟩
     [] ⟨false, ["d"]⟩ true [("a", FsTree.file [97])]
     rfl (by decide) (by decide) rfl rfl⟩

end MiniGit
